import Mathlib

/-!
Verification of the `python_tools` repository: a shallow embedding of
`verilog_syntax_check.py` (a lexical structural/style analyzer for Verilog
source text) and `analog_interface.py` (a port-list generator), together with
theorems settling the specification claims.

Texts are modelled as `List Char`.  The Python code extracts facts with
`re.findall`; each regex used by the code is embedded as an executable
left-to-right scanner that reproduces the `findall` semantics (leftmost,
non-overlapping matches, resuming after each match) for that concrete
pattern.  Python's `\w` and `\s` are modelled at the ASCII level
(`[A-Za-z0-9_]` and `" \t\n\r\x0b\x0c"`), which is what the tool's inputs
use.
-/

namespace PyTools

/-- Python regex `\w` (word character), ASCII fragment: letters, digits, `_`. -/
def isWordChar (c : Char) : Bool :=
  c.isAlpha || c.isDigit || c = '_'

/-- Python regex `\s` (whitespace), ASCII fragment. -/
def isSpaceChar (c : Char) : Bool :=
  c = ' ' || c = '\t' || c = '\n' || c = '\r' || c = '\x0b' || c = '\x0c'

/-- Does `pat` occur as a prefix of `l`?  (Literal-text matching.) -/
def startsWithL : List Char → List Char → Bool
  | [], _ => true
  | _ :: _, [] => false
  | p :: ps, c :: cs => p == c && startsWithL ps cs

/-- Python `pat in s`: does `pat` occur as a contiguous substring of `l`? -/
def containsSub (pat : List Char) : List Char → Bool
  | [] => startsWithL pat []
  | c :: rest => startsWithL pat (c :: rest) || containsSub pat rest

/-- Count of positions of `l` at which `pat` starts.  For the patterns this
development uses (`"begin"`, `"end"`), no non-empty prefix of the pattern is
also a suffix, so occurrences cannot overlap and this equals Python's
non-overlapping `str.count`. -/
def countSub (pat : List Char) : List Char → Nat
  | [] => 0
  | c :: rest => (if startsWithL pat (c :: rest) then 1 else 0) + countSub pat rest

/-- Is the next character a word character?  `true` on end of text means the
position is NOT a word boundary obstacle: used for the regex `\b` after a
literal word. -/
def wordBoundaryAt : List Char → Bool
  | [] => true
  | c :: _ => !isWordChar c

/-- Count of whole-word (`\b...\b`) occurrences of `pat` in the text, scanning
with the word-character status of the previous character.  Embeds
`len(re.findall(r'\b<pat>\b', text))`; the `\b` conditions make matches of a
fixed word pattern non-overlapping, so the positional count equals the
`findall` count. -/
def countWordOccAux (pat : List Char) (prevWord : Bool) : List Char → Nat
  | [] => 0
  | c :: rest =>
    (if !prevWord && startsWithL pat (c :: rest)
        && wordBoundaryAt ((c :: rest).drop pat.length) then 1 else 0)
      + countWordOccAux pat (isWordChar c) rest

/-- Whole-word occurrence count of `pat`, starting at the beginning of text
(no preceding character, so the initial position has a word boundary). -/
def countWordOcc (pat : List Char) (l : List Char) : Nat :=
  countWordOccAux pat false l

/--
Generic `findall` scanner for the two patterns of the shape
`\b(\w+)\b\s*(?:TOKENS)` used by the code (`find_logic_usage` and
`find_assigned_variables`).  The captured identifiers are exactly the maximal
word-character runs of the text whose following text satisfies `follows`
(which embeds `\s*(?:TOKENS)`): the regex's `\b`s force the capture to be a
maximal run, and a match's tail (whitespace plus operator characters) contains
no word character, so non-overlapping scanning visits every maximal run.
`acc = some run` is the run of word characters read so far.
-/
def scanIdents (follows : List Char → Bool) (acc : Option (List Char)) :
    List Char → List (List Char)
  | [] =>
    match acc with
    | some run => if follows [] then [run] else []
    | none => []
  | c :: rest =>
    match acc with
    | some run =>
      if isWordChar c then scanIdents follows (some (run ++ [c])) rest
      else (if follows (c :: rest) then [run] else []) ++ scanIdents follows none rest
    | none =>
      if isWordChar c then scanIdents follows (some [c]) rest
      else scanIdents follows none rest

/-- Embeds `\s*(?:=|<=|==|!=|&|\||\^|~|\+|-|\*|/|%)`: skip whitespace, then an
assignment/operator token must start.  (`<` and `!` match only as `<=`, `!=`.) -/
def opFollowsLogic : List Char → Bool
  | [] => false
  | c :: rest =>
    if isSpaceChar c then opFollowsLogic rest
    else if c = '=' || c = '&' || c = '|' || c = '^' || c = '~' || c = '+'
        || c = '-' || c = '*' || c = '/' || c = '%' then true
    else if c = '<' || c = '!' then startsWithL ['='] rest
    else false

/-- Embeds `\s*(?:<=|=)`: skip whitespace, then `<=` or `=` must start. -/
def opFollowsAssign : List Char → Bool
  | [] => false
  | c :: rest =>
    if isSpaceChar c then opFollowsAssign rest
    else if c = '=' then true
    else if c = '<' then startsWithL ['='] rest
    else false

/-- Keyword of the port-declaration pattern: `input`. -/
def inputChars : List Char := ("input").data

/-- Keyword of the port-declaration pattern: `output`. -/
def outputChars : List Char := ("output").data

/-- Embeds the alternation-plus-boundary `\b(input|output)\b` of `find_ports`
at the current position (the boundary BEFORE the keyword is checked by the
caller): on success returns the text after the keyword. -/
def port_keyword_strip (l : List Char) : Option (List Char) :=
  if startsWithL inputChars l && wordBoundaryAt (l.drop 5) then some (l.drop 5)
  else if startsWithL outputChars l && wordBoundaryAt (l.drop 6) then some (l.drop 6)
  else none

/-- After `\]` inside the optional group of `find_ports`: embeds `\s+(\w+)`.
Requires at least one whitespace character, then captures the maximal word
run.  Returns `(captured name, remaining text)`. -/
def port_after_bracket (l : List Char) : Option (List Char × List Char) :=
  match l with
  | [] => none
  | c :: _ =>
    if isSpaceChar c then
      match l.dropWhile isSpaceChar with
      | [] => none
      | c2 :: _ =>
        if isWordChar c2 then
          some ((l.dropWhile isSpaceChar).takeWhile isWordChar,
                (l.dropWhile isSpaceChar).dropWhile isWordChar)
        else none
    else none

/-- Embeds the optional group `\[.*?\]\s+` of `find_ports` followed by the
capture `(\w+)`, for text `l` just after the opening `[`.  The regex `.`
(no DOTALL in this pattern) does not match a newline, so candidate `]`s are
sought before the first newline; non-greedy `.*?` with backtracking tries
each successive `]` until the tail `\s+(\w+)` succeeds. -/
def port_try_bracket : List Char → Option (List Char × List Char)
  | [] => none
  | c :: rest =>
    if c = '\n' then none
    else if c = ']' then
      match port_after_bracket rest with
      | some r => some r
      | none => port_try_bracket rest
    else port_try_bracket rest

/-- Tries to match `\b(input|output)\b\s+(?:\[.*?\]\s+)?(\w+)` at the start of
`l` (the word boundary before the keyword is the caller's responsibility).
Returns the captured port name and the remaining text after the whole match.
If the optional bracket group fails with all backtracking, `(\w+)` must match
at the first non-whitespace position, which is impossible when that position
holds `[`. -/
def try_port_match (l : List Char) : Option (List Char × List Char) :=
  match port_keyword_strip l with
  | none => none
  | some l1 =>
    match l1 with
    | [] => none
    | c :: _ =>
      if isSpaceChar c then
        match l1.dropWhile isSpaceChar with
        | [] => none
        | '[' :: jr => port_try_bracket jr
        | c2 :: _ =>
          if isWordChar c2 then
            some ((l1.dropWhile isSpaceChar).takeWhile isWordChar,
                  (l1.dropWhile isSpaceChar).dropWhile isWordChar)
          else none
      else none

/-- `findall` loop of `find_ports`: try a match at each position left to
right, resuming after each match.  `prevWord` is the word-character status of
the previous character (for the leading `\b`); a successful match ends in a
word character (the captured `\w+` is maximal), so scanning resumes with
`prevWord = true`.  `fuel` only bounds the recursion; it starts at
`length + 1` and every step consumes at least one character. -/
def find_ports_aux (fuel : Nat) (prevWord : Bool) (l : List Char) : List (List Char) :=
  match fuel, l with
  | 0, _ => []
  | _, [] => []
  | fuel + 1, c :: rest =>
    if !prevWord then
      match try_port_match (c :: rest) with
      | some (name, rem) => name :: find_ports_aux fuel true rem
      | none => find_ports_aux fuel (isWordChar c) rest
    else find_ports_aux fuel (isWordChar c) rest

/-- `find_ports`: `{port for _, port in re.findall(r'\b(input|output)\b\s+(?:\[.*?\]\s+)?(\w+)', text)}`. -/
def find_ports (text : List Char) : Finset (List Char) :=
  (find_ports_aux (text.length + 1) false text).toFinset

/-- Characters of the capture class `[\w\[\]:]` of `find_declared_regs`. -/
def isRegNameChar (c : Char) : Bool :=
  isWordChar c || c = '[' || c = ']' || c = ':'

/-- Keyword of the register-declaration pattern: `reg`. -/
def regChars : List Char := ("reg").data

/-- Tries to match `\breg\b\s+([\w\[\]:]+)` at the start of `l` (leading `\b`
is the caller's).  Returns the captured name (maximal run of the class, which
may retain bracket/colon range decoration) and the remaining text. -/
def try_reg_match (l : List Char) : Option (List Char × List Char) :=
  if startsWithL regChars l && wordBoundaryAt (l.drop 3) then
    match l.drop 3 with
    | [] => none
    | c :: _ =>
      if isSpaceChar c then
        match (l.drop 3).dropWhile isSpaceChar with
        | [] => none
        | c2 :: _ =>
          if isRegNameChar c2 then
            some (((l.drop 3).dropWhile isSpaceChar).takeWhile isRegNameChar,
                  ((l.drop 3).dropWhile isSpaceChar).dropWhile isRegNameChar)
          else none
      else none
  else none

/-- Word-character status of the last character of a captured register name
(the capture class contains the non-word characters `[`, `]`, `:`, so the
resume status after a match depends on the final captured character). -/
def lastIsWord (l : List Char) : Bool :=
  match l.getLast? with
  | some c => isWordChar c
  | none => true

/-- `findall` loop of `find_declared_regs`; same scanning discipline as
`find_ports_aux`. -/
def find_regs_aux (fuel : Nat) (prevWord : Bool) (l : List Char) : List (List Char) :=
  match fuel, l with
  | 0, _ => []
  | _, [] => []
  | fuel + 1, c :: rest =>
    if !prevWord then
      match try_reg_match (c :: rest) with
      | some (name, rem) => name :: find_regs_aux fuel (lastIsWord name) rem
      | none => find_regs_aux fuel (isWordChar c) rest
    else find_regs_aux fuel (isWordChar c) rest

/-- `find_declared_regs`: `set(re.findall(r'\breg\b\s+([\w\[\]:]+)', text))`. -/
def find_declared_regs (text : List Char) : Finset (List Char) :=
  (find_regs_aux (text.length + 1) false text).toFinset

/-- `find_logic_usage`: `set(re.findall(r'\b(\w+)\b\s*(?:=|<=|==|!=|&|\||\^|~|\+|-|\*|/|%)', text))`. -/
def find_logic_usage (text : List Char) : Finset (List Char) :=
  (scanIdents opFollowsLogic none text).toFinset

/-- `find_assigned_variables`: `set(re.findall(r'(\b\w+\b)\s*(?:<=|=)', block))`. -/
def find_assigned_variables (block : List Char) : Finset (List Char) :=
  (scanIdents opFollowsAssign none block).toFinset

/-- Finds the earliest occurrence of the literal `pat` in `l` and returns the
text after it (embeds non-greedy `.*?pat` under `re.DOTALL`, where `.`
matches every character including newlines). -/
def dropToAfter (pat : List Char) : List Char → Option (List Char)
  | [] => if startsWithL pat [] then some [] else none
  | c :: rest =>
    if startsWithL pat (c :: rest) then some ((c :: rest).drop pat.length)
    else dropToAfter pat rest

/-- Literal `begin`. -/
def beginChars : List Char := ("begin").data

/-- Literal `end`. -/
def endChars : List Char := ("end").data

/-- Second alternative `[^;]*;` of the block-body group: `[^;]*` cannot cross
a semicolon, so with the greedy star the alternative succeeds exactly when a
`;` occurs in `l`, capturing through the first `;`.  Returns
`(capture, remaining text)`. -/
def match_group_stmt (l : List Char) : Option (List Char × List Char) :=
  match dropToAfter [';'] l with
  | some rem => some (l.take (l.length - rem.length), rem)
  | none => none

/-- The capture group `(begin.*?end|[^;]*;)` of both block patterns (compiled
with `re.DOTALL`), matched at the start of `l`.  The first alternative needs
the literal `begin` followed (non-greedily) by the earliest literal `end`;
on its failure the second alternative is tried at the same position. -/
def match_group (l : List Char) : Option (List Char × List Char) :=
  if startsWithL beginChars l then
    match dropToAfter endChars (l.drop 5) with
    | some rem => some (l.take (l.length - rem.length), rem)
    | none => match_group_stmt l
  else match_group_stmt l

/-- Literal `always`. -/
def alwaysChars : List Char := ("always").data

/-- Literal `@(*)`. -/
def atStarChars : List Char := ("@(*)").data

/-- Literal `@(posedge`. -/
def atPosedgeChars : List Char := ("@(posedge").data

/-- Tries `always\s*@\(\*\)\s*(begin.*?end|[^;]*;)` at the start of `l`,
returning `(captured body, remaining text)`.  Backtracking the greedy `\s*`
runs cannot rescue a failed group: `begin` never starts at a whitespace
character, and the `[^;]*;` alternative succeeds from an earlier position iff
a `;` exists in the rest of the text, which the first attempt already tested. -/
def try_comb_match (l : List Char) : Option (List Char × List Char) :=
  if startsWithL alwaysChars l then
    match (l.drop 6).dropWhile isSpaceChar with
    | l1 =>
      if startsWithL atStarChars l1 then match_group ((l1.drop 4).dropWhile isSpaceChar)
      else none
  else none

/-- Backtracking loop for `posedge.*?\)`: try the group after each successive
`)` (non-greedy `.*?` extends to the next `)` when the rest of the pattern
fails).  `fuel` starts at the text length; every retry consumes at least one
character. -/
def seq_paren_retry (fuel : Nat) (l : List Char) : Option (List Char × List Char) :=
  match fuel with
  | 0 => none
  | fuel + 1 =>
    match dropToAfter [')'] l with
    | none => none
    | some l3 =>
      match match_group (l3.dropWhile isSpaceChar) with
      | some r => some r
      | none => seq_paren_retry fuel l3

/-- Tries `always\s*@\(posedge.*?\)\s*(begin.*?end|[^;]*;)` at the start of
`l`, returning `(captured body, remaining text)`. -/
def try_seq_match (l : List Char) : Option (List Char × List Char) :=
  if startsWithL alwaysChars l then
    match (l.drop 6).dropWhile isSpaceChar with
    | l1 =>
      if startsWithL atPosedgeChars l1 then seq_paren_retry l1.length (l1.drop 9)
      else none
  else none

/-- `findall` loop of `find_blocks`: leftmost matches, resuming after each
match (the patterns have no leading `\b`, so failed positions advance by one
character).  `fuel` starts at `length + 1`; a match consumes at least the
literal `always`. -/
def find_blocks_aux (step : List Char → Option (List Char × List Char)) :
    Nat → List Char → List (List Char)
  | 0, _ => []
  | _, [] => []
  | fuel + 1, c :: rest =>
    match step (c :: rest) with
    | some (body, rem) => body :: find_blocks_aux step fuel rem
    | none => find_blocks_aux step fuel rest

/-- `find_blocks(text, r'always\s*@\(\*\)\s*(begin.*?end|[^;]*;)')` with `re.DOTALL`. -/
def find_blocks_comb (text : List Char) : List (List Char) :=
  find_blocks_aux try_comb_match (text.length + 1) text

/-- `find_blocks(text, r'always\s*@\(posedge.*?\)\s*(begin.*?end|[^;]*;)')` with `re.DOTALL`. -/
def find_blocks_seq (text : List Char) : List (List Char) :=
  find_blocks_aux try_seq_match (text.length + 1) text

/-- Python `str.splitlines` for the line terminators `\n`, `\r`, `\r\n`
(no trailing empty line).  `acc` is the current line read so far. -/
def splitlinesAux (acc : List Char) : List Char → List (List Char)
  | [] => [acc]
  | '\r' :: '\n' :: rest => acc :: (if rest.isEmpty then [] else splitlinesAux [] rest)
  | '\r' :: rest => acc :: (if rest.isEmpty then [] else splitlinesAux [] rest)
  | '\n' :: rest => acc :: (if rest.isEmpty then [] else splitlinesAux [] rest)
  | c :: rest => splitlinesAux (acc ++ [c]) rest

/-- Python `str.splitlines` (`""` has no lines). -/
def pySplitlines : List Char → List (List Char)
  | [] => []
  | c :: rest => splitlinesAux [] (c :: rest)

/-- Python `str.strip()`: remove leading and trailing whitespace. -/
def pyStrip (l : List Char) : List Char :=
  ((l.dropWhile isSpaceChar).reverse.dropWhile isSpaceChar).reverse

/-- Literal `<=`. -/
def leChars : List Char := ("<=").data

/-- Literal `=`. -/
def eqChars : List Char := ("=").data

/-- `check_non_blocking_in_comb`: the stripped lines of the block body that
contain `<=`, in order. -/
def check_non_blocking_in_comb (block : List Char) : List (List Char) :=
  ((pySplitlines block).filter (fun ln => containsSub leChars ln)).map pyStrip

/-- `check_blocking_in_seq`: the stripped lines of the block body that
contain `=` but do not contain the substring `<=`, in order. -/
def check_blocking_in_seq (block : List Char) : List (List Char) :=
  ((pySplitlines block).filter
    (fun ln => containsSub eqChars ln && !containsSub leChars ln)).map pyStrip

/-- `match_begin_end`: textual counts of `begin` and `end` in the raw body
are equal. -/
def match_begin_end (block : List Char) : Bool :=
  countSub beginChars block == countSub endChars block

/-- Finding categories (§3 of the spec). -/
inductive Category
  | UnusedPort
  | NonBlockingInComb
  | BlockingInSeq
  | UndeclaredRegAssignment
  | MismatchedBeginEnd
  | MismatchedModuleEndmodule
  deriving DecidableEq

/-- Kind of a procedural block: `always @(*)` or `always @(posedge ...)`. -/
inductive BlockKind
  | comb
  | seq
  deriving DecidableEq

/-- Detail payload of a finding: an identifier set, an offending (stripped)
line, the two keyword counts, or nothing. -/
inductive FindingDetail
  | names (s : Finset (List Char))
  | line (l : List Char)
  | counts (m e : Nat)
  | noDetail
  deriving DecidableEq

/-- One reported defect instance (§3 of the spec). -/
structure Finding where
  category : Category
  kind : Option BlockKind
  blockIndex : Option Nat
  detail : FindingDetail
  deriving DecidableEq

/-- `check_port_usage`: `unused = find_ports(text) - find_logic_usage(text)`;
one `UnusedPort` finding carrying the unused set when it is non-empty. -/
def check_port_usage (text : List Char) : List Finding :=
  if find_ports text \ find_logic_usage text = ∅ then []
  else [⟨Category.UnusedPort, none, none,
         FindingDetail.names (find_ports text \ find_logic_usage text)⟩]

/-- Literal `module`. -/
def moduleChars : List Char := ("module").data

/-- Literal `endmodule`. -/
def endmoduleChars : List Char := ("endmodule").data

/-- `check_module_endmodule`: whole-word counts of `module` and `endmodule`
over the whole file; one finding reporting both counts when they differ. -/
def check_module_endmodule (text : List Char) : List Finding :=
  if countWordOcc moduleChars text = countWordOcc endmoduleChars text then []
  else [⟨Category.MismatchedModuleEndmodule, none, none,
         FindingDetail.counts (countWordOcc moduleChars text)
           (countWordOcc endmoduleChars text)⟩]

/-- Findings of one combinational block (loop body of `analyze_always_blocks`
over `comb_blocks`, in emission order): begin/end balance (only checked when
the body contains `begin`), non-blocking assignments (one finding per
offending line), then undeclared assignment targets. -/
def per_comb_block (regs : Finset (List Char)) (i : Nat) (b : List Char) : List Finding :=
  (if containsSub beginChars b && !match_begin_end b then
    [⟨Category.MismatchedBeginEnd, some BlockKind.comb, some i, FindingDetail.noDetail⟩]
   else [])
  ++ (check_non_blocking_in_comb b).map
      (fun ln => ⟨Category.NonBlockingInComb, some BlockKind.comb, some i, FindingDetail.line ln⟩)
  ++ (if find_assigned_variables b \ regs = ∅ then []
      else [⟨Category.UndeclaredRegAssignment, some BlockKind.comb, some i,
             FindingDetail.names (find_assigned_variables b \ regs)⟩])

/-- Findings of one sequential block (loop body of `analyze_always_blocks`
over `seq_blocks`, in emission order). -/
def per_seq_block (regs : Finset (List Char)) (i : Nat) (b : List Char) : List Finding :=
  (if containsSub beginChars b && !match_begin_end b then
    [⟨Category.MismatchedBeginEnd, some BlockKind.seq, some i, FindingDetail.noDetail⟩]
   else [])
  ++ (check_blocking_in_seq b).map
      (fun ln => ⟨Category.BlockingInSeq, some BlockKind.seq, some i, FindingDetail.line ln⟩)
  ++ (if find_assigned_variables b \ regs = ∅ then []
      else [⟨Category.UndeclaredRegAssignment, some BlockKind.seq, some i,
             FindingDetail.names (find_assigned_variables b \ regs)⟩])

/-- Iterates a per-block finding function over a block list, numbering blocks
from `i` (the code numbers from 1 via `enumerate(blocks, 1)`). -/
def blocks_findings (perBlock : Nat → List Char → List Finding) :
    Nat → List (List Char) → List Finding
  | _, [] => []
  | i, b :: rest => perBlock i b ++ blocks_findings perBlock (i + 1) rest

/-- `analyze_always_blocks`: all block findings in emission order, plus the
combinational and sequential block counts. -/
def analyze_always_blocks (text : List Char) : List Finding × Nat × Nat :=
  (blocks_findings (per_comb_block (find_declared_regs text)) 1 (find_blocks_comb text)
     ++ blocks_findings (per_seq_block (find_declared_regs text)) 1 (find_blocks_seq text),
   (find_blocks_comb text).length, (find_blocks_seq text).length)

/-- Aggregated analysis result (§3 of the spec): findings in emission order
plus the numbers of combinational and sequential blocks examined. -/
structure AnalysisReport where
  findings : List Finding
  combCount : Nat
  seqCount : Nat
  deriving DecidableEq

/-- Whole analysis run (`run_verilog_syntax_check` minus file I/O): port
usage check, module balance check, then the always-block analysis. -/
def analyze (text : List Char) : AnalysisReport :=
  ⟨check_port_usage text ++ check_module_endmodule text ++ (analyze_always_blocks text).1,
   (analyze_always_blocks text).2.1, (analyze_always_blocks text).2.2⟩

/-- Selector for the findings of one category attached to one block. -/
def selFun (cat : Category) (k : BlockKind) (i : Nat) : Finding → Bool :=
  fun f => decide (f.category = cat ∧ f.kind = some k ∧ f.blockIndex = some i)

/-- The findings of a report with a given category, block kind and block
index (for stating per-block properties of the aggregate report). -/
def findingsFor (r : AnalysisReport) (cat : Category) (k : BlockKind) (i : Nat) : List Finding :=
  r.findings.filter (selFun cat k i)

/-- The findings of a report with a given category (for the global checks,
which attach no block index). -/
def findingsCat (r : AnalysisReport) (cat : Category) : List Finding :=
  r.findings.filter (fun f => decide (f.category = cat))

/-! ### Port-list generator (`analog_interface.py`) -/

/-- One tabular pin record (one row of the input sheet): columns
`PortName`, `Direction`, `Type`, `FromTo`.  The `Direction` column is read
but never used by `process_data`. -/
structure PinRow where
  portName : List Char
  dirColumn : List Char
  ptype : List Char
  fromTo : List Char
  deriving DecidableEq

/-- Port direction as emitted. -/
inductive Dir
  | input
  | output
  deriving DecidableEq

/-- The fixed lookup table
`{"CA": "output", "AC": "input", "RA": "output", "AR": "input"}`. -/
def direction_map : List (List Char × Dir) :=
  [(("CA").data, Dir.output), (("AC").data, Dir.input),
   (("RA").data, Dir.output), (("AR").data, Dir.input)]

/-- First-match association lookup. -/
def lookupDir : List (List Char × Dir) → List Char → Option Dir
  | [], _ => none
  | (k, v) :: rest, key => if k = key then some v else lookupDir rest key

/-- `direction_map.get(row["FromTo"], "input")`: an unmapped code defaults to
`input`. -/
def dirOf (fromTo : List Char) : Dir :=
  match lookupDir direction_map fromTo with
  | some d => d
  | none => Dir.input

/-- Python `str.split(sep)` for a one-character separator (keeps empty
parts). -/
def splitOnCharAux (sep : Char) (acc : List Char) : List Char → List (List Char)
  | [] => [acc]
  | c :: rest =>
    if c = sep then acc :: splitOnCharAux sep [] rest
    else splitOnCharAux sep (acc ++ [c]) rest

/-- Python `str.split(sep)` for a one-character separator. -/
def splitOnChar (sep : Char) (l : List Char) : List (List Char) :=
  splitOnCharAux sep [] l

/-- Python `str.strip(">")`: remove every leading and trailing `>`. -/
def stripGt (l : List Char) : List Char :=
  ((l.dropWhile (fun c => c = '>')).reverse.dropWhile (fun c => c = '>')).reverse

/-- Decimal-digit string parser (the fragment of Python `int()` that the bit
indices of a port-name range use; on anything but a non-empty digit string
the code path raises, modelled as `none`). -/
def parseNatAux (acc : Nat) : List Char → Option Nat
  | [] => some acc
  | c :: rest =>
    if c.isDigit then parseNatAux (acc * 10 + (c.toNat - 48)) rest
    else none

/-- Parse a non-empty decimal-digit string. -/
def parseNat : List Char → Option Nat
  | [] => none
  | c :: rest => parseNatAux 0 (c :: rest)

/-- Parsing of one `PortName` cell: `base<h:l>` or `base<n>` yields the base
name and a `(start, end)` range (`<n>` gives `(n, n)`); a name without `<`
yields no range.  `none` models the `ValueError` the code raises on a
malformed cell (more than one `<`, a range that is not one or two integers). -/
def parsePortName (pn : List Char) : Option (List Char × Option (Nat × Nat)) :=
  if containsSub ['<'] pn then
    match splitOnChar '<' pn with
    | [base, rangePart] =>
      if containsSub [':'] (stripGt rangePart) then
        match splitOnChar ':' (stripGt rangePart) with
        | [s, e] =>
          match parseNat s, parseNat e with
          | some a, some b => some (base, some (a, b))
          | _, _ => none
        | _ => none
      else
        match parseNat (stripGt rangePart) with
        | some v => some (base, some (v, v))
        | none => none
    | _ => none
  else some (pn, none)

/-- Group store: insertion-ordered association list from `(base, direction)`
keys to the list of appended range entries — the embedding of the
`defaultdict(list)` named `ports`. -/
abbrev Groups : Type := List ((List Char × Dir) × List (Option (Nat × Nat)))

/-- `ports[(base, direction)].append(r)`: append to an existing key's list,
or add a new key at the end (dict insertion order). -/
def addRange (key : List Char × Dir) (r : Option (Nat × Nat)) : Groups → Groups
  | [] => [(key, [r])]
  | (k, rs) :: rest =>
    if k = key then (k, rs ++ [r]) :: rest else (k, rs) :: addRange key r rest

/-- The row loop of `process_data` over the (already filtered) rows;
`none` models a raised `ValueError` on a malformed `PortName`. -/
def buildGroups (acc : Groups) : List PinRow → Option Groups
  | [] => some acc
  | row :: rest =>
    match parsePortName row.portName with
    | none => none
    | some (base, r) => buildGroups (addRange (base, dirOf row.fromTo) r acc) rest

/-- First-match lookup in a group store (`[]` for an absent key); reads the
same entry `addRange` updates. -/
def lookupG : Groups → (List Char × Dir) → List (Option (Nat × Nat))
  | [], _ => []
  | (k, rs) :: rest, key => if k = key then rs else lookupG rest key

/-- Literal `pad` (the sentinel `Type` marking a row as excluded). -/
def padChars : List Char := ("pad").data

/-- Maximum of a list of naturals (`0` on `[]`; used only on non-empty lists). -/
def listMax : List Nat → Nat
  | [] => 0
  | x :: xs => max x (listMax xs)

/-- Minimum of a non-empty list of naturals (`0` on `[]`; used only on
non-empty lists). -/
def listMin : List Nat → Nat
  | [] => 0
  | [x] => x
  | x :: y :: xs => min x (listMin (y :: xs))

/-- Direction keyword text. -/
def dirChars : Dir → List Char
  | Dir.input => ("input").data
  | Dir.output => ("output").data

/-- Decimal digits of a natural number; `fuel` starts at `n + 1`, which
covers every digit. -/
def natDigitsAux : Nat → Nat → List Char
  | 0, _ => []
  | fuel + 1, n =>
    if n < 10 then [Char.ofNat (48 + n)]
    else natDigitsAux fuel (n / 10) ++ [Char.ofNat (48 + n % 10)]

/-- Decimal text of a natural number. -/
def natToChars (n : Nat) : List Char :=
  natDigitsAux (n + 1) n

/-- One emitted line for a group: `f"{direction} {base}"` when every entry
has no range, else `f"{direction} [{max start}:{min end}] {base}"` with the
extremes taken over the entries that carry a range. -/
def renderGroup (g : (List Char × Dir) × List (Option (Nat × Nat))) : List Char :=
  if g.2.all (fun r => r.isNone) then dirChars g.1.2 ++ [' '] ++ g.1.1
  else
    dirChars g.1.2 ++ [' ', '[']
      ++ natToChars (listMax (g.2.filterMap (fun r => r.map Prod.fst)))
      ++ [':'] ++ natToChars (listMin (g.2.filterMap (fun r => r.map Prod.snd)))
      ++ [']', ' '] ++ g.1.1

/-- `process_data` (its emitted port lines): filter out rows whose `Type` is
`pad`, group the remaining rows by `(base name, mapped direction)` collecting
their range entries in row order, then emit one line per group in group
insertion order.  `none` models a raised `ValueError`. -/
def process_data (rows : List PinRow) : Option (List (List Char)) :=
  match buildGroups [] (rows.filter (fun r => !(r.ptype == padChars))) with
  | none => none
  | some groups => some (groups.map renderGroup)

/-! ### Specification-side descriptions used to state the claims -/

/-- The rows `process_data` keeps: those whose `Type` is not the sentinel. -/
def keptRows (rows : List PinRow) : List PinRow :=
  rows.filter (fun r => !(r.ptype == padChars))

/-- The grouping key of one row, if its `PortName` parses. -/
def keyOf (r : PinRow) : Option (List Char × Dir) :=
  (parsePortName r.portName).map (fun p => (p.1, dirOf r.fromTo))

/-- First-occurrence deduplication (keeps the order of first appearance),
with an accumulator of already-seen keys. -/
def dedupFirstAux {K : Type} [DecidableEq K] (seen : List K) : List K → List K
  | [] => []
  | k :: rest =>
    if k ∈ seen then dedupFirstAux seen rest
    else k :: dedupFirstAux (k :: seen) rest

/-- The distinct grouping keys of the kept rows, in order of first
appearance. -/
def orderedKeys (rows : List PinRow) : List (List Char × Dir) :=
  dedupFirstAux [] ((keptRows rows).filterMap keyOf)

/-- The range entries a list of rows contributes to a key, in row order: one
entry per row whose key matches (`none` for a row without a range suffix). -/
def contribOf (kl : List PinRow) (key : List Char × Dir) : List (Option (Nat × Nat)) :=
  (kl.filter (fun r => keyOf r == some key)).filterMap
    (fun r => (parsePortName r.portName).map Prod.snd)

/-- The range entries contributed to a key by the kept rows of the input. -/
def rangesOf (rows : List PinRow) (key : List Char × Dir) : List (Option (Nat × Nat)) :=
  contribOf (keptRows rows) key

/-- Specification-side description of "the identifier `w` appears in the text
immediately before (up to whitespace) a token accepted by `follows`": `w` is
a non-empty word-character run occurring at a word boundary whose following
text satisfies `follows`.  The claims' notion of a *used* identifier is
`IdentBefore opFollowsLogic`; an *assignment target* is
`IdentBefore opFollowsAssign`. -/
def IdentBefore (follows : List Char → Bool) (w text : List Char) : Prop :=
  w ≠ [] ∧ (∀ c ∈ w, isWordChar c = true) ∧
    ∃ pre post, text = pre ++ w ++ post ∧
      (pre = [] ∨ ∃ d, pre.getLast? = some d ∧ isWordChar d = false) ∧
      follows post = true

/-- Specification-side reading of claim C2: the line contains an occurrence
of `=` that is not the second character of a `<=` token (i.e. not
immediately preceded by `<`).  `prev` is the previous character. -/
def lineHasBareEqAux (prev : Option Char) : List Char → Bool
  | [] => false
  | c :: rest => (c == '=' && !(prev == some '<')) || lineHasBareEqAux (some c) rest

/-- The line contains a `=` that is not part of a `<=` token. -/
def lineHasBareEq (l : List Char) : Bool :=
  lineHasBareEqAux none l

/-! ## Lemmas: the identifier scanner captures exactly the identifiers
occurring before an accepted token -/

theorem length_dropWhile_le' (p : Char → Bool) (l : List Char) :
    (l.dropWhile p).length ≤ l.length := by
  induction l with
  | nil => simp [List.dropWhile]
  | cons c rest ih =>
    by_cases h : p c
    · simp only [List.dropWhile, h, if_true]
      exact Nat.le_trans ih (Nat.le_succ _)
    · simp [List.dropWhile, h]

theorem head_dropWhile_not (p : Char → Bool) :
    ∀ (l t : List Char) (c : Char), l.dropWhile p = c :: t → p c = false := by
  intro l
  induction l with
  | nil => intro t c h; simp [List.dropWhile] at h
  | cons a rest ih =>
    intro t c h
    by_cases ha : p a
    · simp only [List.dropWhile, ha, if_true] at h
      exact ih t c h
    · simp only [List.dropWhile, ha, if_false] at h
      cases h
      simp [Bool.eq_false_iff, ha]

theorem takeWhile_append_all (p : Char → Bool) :
    ∀ (w post : List Char), (∀ c ∈ w, p c = true) →
      (w ++ post).takeWhile p = w ++ post.takeWhile p := by
  intro w
  induction w with
  | nil => intro post _; simp
  | cons a rest ih =>
    intro post h
    have ha : p a = true := h a (List.mem_cons_self a rest)
    simp only [List.cons_append, List.takeWhile, ha, if_true, List.append_eq]
    rw [ih post (fun c hc => h c (List.mem_cons_of_mem a hc))]

theorem dropWhile_append_all (p : Char → Bool) :
    ∀ (w post : List Char), (∀ c ∈ w, p c = true) →
      (w ++ post).dropWhile p = post.dropWhile p := by
  intro w
  induction w with
  | nil => intro post _; simp
  | cons a rest ih =>
    intro post h
    have ha : p a = true := h a (List.mem_cons_self a rest)
    simp only [List.cons_append, List.dropWhile, ha, if_true]
    exact ih post (fun c hc => h c (List.mem_cons_of_mem a hc))

theorem dropWhile_append_ne_nil (p : Char → Bool) :
    ∀ (l₁ l₂ : List Char), l₁.dropWhile p ≠ [] →
      (l₁ ++ l₂).dropWhile p = l₁.dropWhile p ++ l₂ := by
  intro l₁
  induction l₁ with
  | nil => intro l₂ h; simp [List.dropWhile] at h
  | cons a rest ih =>
    intro l₂ h
    by_cases ha : p a
    · simp only [List.dropWhile, ha, if_true] at h
      simp only [List.cons_append, List.dropWhile, ha, if_true]
      exact ih l₂ h
    · simp [List.cons_append, List.dropWhile, ha]

theorem mem_takeWhile_word (p : Char → Bool) :
    ∀ (l : List Char) (c : Char), c ∈ l.takeWhile p → p c = true := by
  intro l
  induction l with
  | nil => intro c h; simp [List.takeWhile] at h
  | cons a rest ih =>
    intro c h
    by_cases ha : p a
    · simp only [List.takeWhile, ha, if_true, List.mem_cons] at h
      cases h with
      | inl h => exact h ▸ ha
      | inr h => exact ih c h
    · simp [List.takeWhile, ha] at h

theorem getLast?_dropWhile (p : Char → Bool) :
    ∀ (l : List Char), l.dropWhile p ≠ [] → (l.dropWhile p).getLast? = l.getLast? := by
  intro l
  induction l with
  | nil => intro h; simp [List.dropWhile] at h
  | cons a rest ih =>
    intro h
    by_cases ha : p a
    · simp only [List.dropWhile, ha, if_true] at h ⊢
      have hrest : rest ≠ [] := by
        intro he; rw [he] at h; simp [List.dropWhile] at h
      rw [ih h]
      match rest, hrest with
      | b :: t, _ => simp [List.getLast?_cons_cons]
    · simp [List.dropWhile, ha]

theorem getLast?_append_right' :
    ∀ (l₁ l₂ : List Char), l₂ ≠ [] → (l₁ ++ l₂).getLast? = l₂.getLast? := by
  intro l₁
  induction l₁ with
  | nil => intro l₂ _; simp
  | cons a rest ih =>
    intro l₂ h
    rw [List.cons_append]
    have hne : rest ++ l₂ ≠ [] := by
      intro he
      rcases List.append_eq_nil.mp he with ⟨_, h2⟩
      exact h h2
    match hr : rest ++ l₂, hne with
    | b :: t, _ =>
      rw [List.getLast?_cons_cons, ← hr, ih l₂ h]

/-- Unfolding equation for `scanIdents` in the "inside a run" state: the rest
of the run is the maximal word prefix, after which the run is emitted iff
`follows` accepts the remaining text, and scanning continues there. -/
theorem scanIdents_some (f : List Char → Bool) :
    ∀ (l run : List Char),
      scanIdents f (some run) l =
        (if f (l.dropWhile isWordChar) then [run ++ l.takeWhile isWordChar] else [])
          ++ scanIdents f none (l.dropWhile isWordChar) := by
  intro l
  induction l with
  | nil => intro run; simp [scanIdents, List.dropWhile, List.takeWhile]
  | cons c rest ih =>
    intro run
    by_cases hc : isWordChar c
    · simp only [scanIdents, hc, if_true, List.dropWhile, List.takeWhile]
      rw [ih (run ++ [c])]
      simp
    · simp only [scanIdents, hc, if_false, List.dropWhile, List.takeWhile,
        Bool.false_eq_true]
      simp [scanIdents, hc]

theorem scanIdents_none_not_word (f : List Char → Bool) (c : Char) (rest : List Char)
    (hc : isWordChar c = false) :
    scanIdents f none (c :: rest) = scanIdents f none rest := by
  simp [scanIdents, hc]

theorem scanIdents_none_word (f : List Char → Bool) (c : Char) (rest : List Char)
    (hc : isWordChar c = true) :
    scanIdents f none (c :: rest) =
      (if f (rest.dropWhile isWordChar) then [c :: rest.takeWhile isWordChar] else [])
        ++ scanIdents f none (rest.dropWhile isWordChar) := by
  simp only [scanIdents, hc, if_true]
  rw [scanIdents_some]
  simp

theorem IdentBefore_nil (f : List Char → Bool) (w : List Char) :
    ¬ IdentBefore f w [] := by
  rintro ⟨hne, _, pre, post, heq, _, _⟩
  rcases List.append_eq_nil.mp heq.symm with ⟨h1, -⟩
  rcases List.append_eq_nil.mp h1 with ⟨-, hw0⟩
  exact hne hw0

theorem IdentBefore_cons_not_word (f : List Char → Bool) (c : Char) (rest w : List Char)
    (hc : isWordChar c = false) :
    IdentBefore f w (c :: rest) ↔ IdentBefore f w rest := by
  constructor
  · rintro ⟨hne, hall, pre, post, heq, hb, hf⟩
    match pre, heq, hb with
    | [], heq, _ =>
      match w, hne, hall, heq with
      | w0 :: w', _, hall, heq =>
        simp only [List.nil_append, List.cons_append, List.cons.injEq] at heq
        have h0 := hall w0 (List.mem_cons_self _ _)
        rw [← heq.1] at h0
        rw [h0] at hc
        cases hc
    | p :: pre', heq, hb =>
      simp only [List.cons_append, List.cons.injEq] at heq
      obtain ⟨-, hrest⟩ := heq
      refine ⟨hne, hall, pre', post, hrest, ?_, hf⟩
      rcases hb with hb | ⟨d, hd, hdw⟩
      · cases hb
      · match pre' with
        | [] => exact Or.inl rfl
        | q :: pre'' =>
          rw [List.getLast?_cons_cons] at hd
          exact Or.inr ⟨d, hd, hdw⟩
  · rintro ⟨hne, hall, pre, post, heq, hb, hf⟩
    refine ⟨hne, hall, c :: pre, post, by rw [heq]; simp, ?_, hf⟩
    rcases hb with hb | ⟨d, hd, hdw⟩
    · subst hb
      exact Or.inr ⟨c, by simp, hc⟩
    · match pre, hd with
      | [], hd => simp at hd
      | q :: pre', hd =>
        refine Or.inr ⟨d, ?_, hdw⟩
        rw [List.getLast?_cons_cons]
        exact hd

theorem IdentBefore_cons_word (f : List Char → Bool)
    (hw : ∀ c rest, isWordChar c = true → f (c :: rest) = false)
    (c : Char) (rest w : List Char) (hc : isWordChar c = true) :
    IdentBefore f w (c :: rest) ↔
      (f (rest.dropWhile isWordChar) = true ∧ w = c :: rest.takeWhile isWordChar)
        ∨ IdentBefore f w (rest.dropWhile isWordChar) := by
  constructor
  · rintro ⟨hne, hall, pre, post, heq, hb, hf⟩
    match pre, heq, hb with
    | [], heq, _ =>
      left
      match w, hne, hall, heq with
      | w0 :: w', _, hall, heq =>
        simp only [List.nil_append, List.cons_append, List.cons.injEq] at heq
        obtain ⟨hcw, hrest⟩ := heq
        have hallw' : ∀ x ∈ w', isWordChar x = true :=
          fun x hx => hall x (List.mem_cons_of_mem _ hx)
        have hposttk : post.takeWhile isWordChar = [] ∧ post.dropWhile isWordChar = post := by
          match post with
          | [] => simp
          | q :: qs =>
            have hq : isWordChar q = false := by
              cases hql : isWordChar q
              · rfl
              · rw [hw q qs hql] at hf; cases hf
            simp [List.takeWhile, List.dropWhile, hq]
        constructor
        · rw [hrest, dropWhile_append_all isWordChar w' post hallw', hposttk.2]
          exact hf
        · rw [hrest, takeWhile_append_all isWordChar w' post hallw', hposttk.1,
            List.append_nil, hcw]
    | p :: pre', heq, hb =>
      right
      simp only [List.cons_append, List.cons.injEq] at heq
      obtain ⟨hcp, hrest⟩ := heq
      rcases hb with hb | ⟨d, hd, hdw⟩
      · cases hb
      · have hpre' : pre'.dropWhile isWordChar ≠ [] := by
          intro hnil
          have hallp := List.dropWhile_eq_nil_iff.mp hnil
          have hdm : d ∈ p :: pre' := List.mem_of_mem_getLast? hd
          rcases List.mem_cons.mp hdm with hdp | hdm'
          · rw [hdp, ← hcp, hc] at hdw; cases hdw
          · rw [hallp d hdm'] at hdw; cases hdw
        have hpne : pre' ≠ [] := by
          intro h; rw [h] at hpre'; simp at hpre'
        have hsplit : rest.dropWhile isWordChar =
            pre'.dropWhile isWordChar ++ (w ++ post) := by
          rw [hrest, List.append_assoc]
          exact dropWhile_append_ne_nil isWordChar pre' (w ++ post) hpre'
        refine ⟨hne, hall, pre'.dropWhile isWordChar, post, by rw [hsplit]; simp, ?_, hf⟩
        right
        refine ⟨d, ?_, hdw⟩
        rw [getLast?_dropWhile isWordChar pre' hpre']
        rw [← hd]
        match pre', hpne with
        | q :: pre'', _ => rw [List.getLast?_cons_cons]
  · rintro (⟨hf', hwq⟩ | ⟨hne, hall, pre, post, heq, hb, hf⟩)
    · refine ⟨by rw [hwq]; exact List.cons_ne_nil _ _, ?_,
        [], rest.dropWhile isWordChar, ?_, Or.inl rfl, hf'⟩
      · intro x hx
        rw [hwq] at hx
        rcases List.mem_cons.mp hx with hxc | hxm
        · rw [hxc]; exact hc
        · exact mem_takeWhile_word isWordChar rest x hxm
      · rw [hwq]
        simp [List.takeWhile_append_dropWhile]
    · have hpne : pre ≠ [] := by
        intro h
        subst h
        simp only [List.nil_append] at heq
        match w, hne, hall with
        | w0 :: w', _, hall =>
          have h0 : rest.dropWhile isWordChar = w0 :: (w' ++ post) := by
            rw [heq]; simp
          have := head_dropWhile_not isWordChar rest (w' ++ post) w0 h0
          rw [hall w0 (List.mem_cons_self _ _)] at this
          cases this
      refine ⟨hne, hall, (c :: rest.takeWhile isWordChar) ++ pre, post, ?_, ?_, hf⟩
      · have hsplit : rest = rest.takeWhile isWordChar ++ rest.dropWhile isWordChar :=
          (List.takeWhile_append_dropWhile _ _).symm
        conv_lhs => rw [hsplit, heq]
        simp
      · rcases hb with hb | ⟨d, hd, hdw⟩
        · exact absurd hb hpne
        · refine Or.inr ⟨d, ?_, hdw⟩
          rw [getLast?_append_right' (c :: rest.takeWhile isWordChar) pre hpne]
          exact hd

/-- Correctness of the generic identifier scanner: for a token predicate that
rejects word-character starts (true of both instances used by the code), the
scanner captures an identifier iff it occurs as a maximal word run whose
following text is accepted. -/
theorem mem_scanIdents_iff (f : List Char → Bool)
    (hw : ∀ c rest, isWordChar c = true → f (c :: rest) = false)
    (text w : List Char) :
    w ∈ scanIdents f none text ↔ IdentBefore f w text := by
  suffices h : ∀ (n : Nat) (text w : List Char), text.length ≤ n →
      (w ∈ scanIdents f none text ↔ IdentBefore f w text) from
    h text.length text w le_rfl
  intro n
  induction n with
  | zero =>
    intro text w hlen
    match text, hlen with
    | [], _ =>
      simp only [scanIdents, List.not_mem_nil, false_iff]
      exact IdentBefore_nil f w
  | succ n ih =>
    intro text w hlen
    match text with
    | [] =>
      simp only [scanIdents, List.not_mem_nil, false_iff]
      exact IdentBefore_nil f w
    | c :: rest =>
      have hlen' : rest.length ≤ n := Nat.le_of_succ_le_succ hlen
      cases hc : isWordChar c
      · rw [scanIdents_none_not_word f c rest hc,
          IdentBefore_cons_not_word f c rest w hc]
        exact ih rest w hlen'
      · rw [scanIdents_none_word f c rest hc,
          IdentBefore_cons_word f hw c rest w hc,
          ← ih (rest.dropWhile isWordChar) w
            (Nat.le_trans (length_dropWhile_le' isWordChar rest) hlen')]
        by_cases hfa : f (rest.dropWhile isWordChar) = true
        · simp [hfa, List.mem_append, eq_comm]
        · simp [hfa, List.mem_append]

theorem word_not_space (c : Char) (h : isWordChar c = true) : isSpaceChar c = false := by
  cases hs : isSpaceChar c
  · rfl
  · exfalso
    simp only [isSpaceChar, Bool.or_eq_true, decide_eq_true_eq] at hs
    rcases hs with ((((h1 | h1) | h1) | h1) | h1) | h1 <;>
      (subst h1; exact absurd h (by decide))

theorem word_decide_ne (c x : Char) (h : isWordChar c = true) (hx : isWordChar x = false) :
    (decide (c = x)) = false :=
  decide_eq_false (fun he => by rw [he] at h; rw [h] at hx; cases hx)

theorem opFollowsLogic_not_word (c : Char) (rest : List Char) (h : isWordChar c = true) :
    opFollowsLogic (c :: rest) = false := by
  simp only [opFollowsLogic, word_not_space c h, Bool.false_eq_true, if_false,
    word_decide_ne c '=' h (by decide), word_decide_ne c '&' h (by decide),
    word_decide_ne c '|' h (by decide), word_decide_ne c '^' h (by decide),
    word_decide_ne c '~' h (by decide), word_decide_ne c '+' h (by decide),
    word_decide_ne c '-' h (by decide), word_decide_ne c '*' h (by decide),
    word_decide_ne c '/' h (by decide), word_decide_ne c '%' h (by decide),
    word_decide_ne c '<' h (by decide), word_decide_ne c '!' h (by decide),
    Bool.or_self, Bool.or_false, Bool.false_or]

theorem opFollowsAssign_not_word (c : Char) (rest : List Char) (h : isWordChar c = true) :
    opFollowsAssign (c :: rest) = false := by
  have h1 : ¬ (c = '=') := fun he => absurd h (by rw [he]; decide)
  have h2 : ¬ (c = '<') := fun he => absurd h (by rw [he]; decide)
  have hs : ¬ (isSpaceChar c = true) := by rw [word_not_space c h]; simp
  simp only [opFollowsAssign]
  rw [if_neg hs, if_neg h1, if_neg h2]

/-- `find_logic_usage` contains exactly the identifiers occurring (as maximal
word runs) immediately before — up to whitespace — an assignment/operator
token. -/
theorem mem_find_logic_usage_iff (text w : List Char) :
    w ∈ find_logic_usage text ↔ IdentBefore opFollowsLogic w text := by
  rw [find_logic_usage, List.mem_toFinset]
  exact mem_scanIdents_iff opFollowsLogic opFollowsLogic_not_word text w

/-- `find_assigned_variables` contains exactly the identifiers occurring (as
maximal word runs) immediately before — up to whitespace — a `<=` or `=`
token. -/
theorem mem_find_assigned_variables_iff (block w : List Char) :
    w ∈ find_assigned_variables block ↔ IdentBefore opFollowsAssign w block := by
  rw [find_assigned_variables, List.mem_toFinset]
  exact mem_scanIdents_iff opFollowsAssign opFollowsAssign_not_word block w

/-- Assignment-target usage is a special case of operator usage: `<=` and `=`
are among the tokens of the "used identifier" pattern. -/
theorem opFollowsAssign_le_logic :
    ∀ (l : List Char), opFollowsAssign l = true → opFollowsLogic l = true := by
  intro l
  induction l with
  | nil => intro h; cases h
  | cons c rest ih =>
    intro h
    by_cases hs : isSpaceChar c
    · have hl : opFollowsLogic (c :: rest) = opFollowsLogic rest := by
        simp [opFollowsLogic, hs]
      have ha : opFollowsAssign (c :: rest) = opFollowsAssign rest := by
        simp [opFollowsAssign, hs]
      rw [hl]
      rw [ha] at h
      exact ih h
    · by_cases he : c = '='
      · subst he; rfl
      · by_cases hlt : c = '<'
        · subst hlt
          have ha : opFollowsAssign ('<' :: rest) = startsWithL ['='] rest := rfl
          have hb : opFollowsLogic ('<' :: rest) = startsWithL ['='] rest := rfl
          rw [hb]
          rw [ha] at h
          exact h
        · exfalso
          have ha : opFollowsAssign (c :: rest) = false := by
            simp only [opFollowsAssign]
            rw [if_neg hs, if_neg he, if_neg hlt]
          rw [ha] at h
          cases h

/-! ## Lemmas: locating one block's findings inside the aggregate report -/

theorem per_comb_block_meta (regs : Finset (List Char)) (i : Nat) (b : List Char)
    (f : Finding) (h : f ∈ per_comb_block regs i b) :
    f.kind = some BlockKind.comb ∧ f.blockIndex = some i ∧
      (f.category = Category.MismatchedBeginEnd ∨
        f.category = Category.NonBlockingInComb ∨
        f.category = Category.UndeclaredRegAssignment) := by
  simp only [per_comb_block, List.mem_append] at h
  rcases h with (h | h) | h
  · rcases List.mem_ite_nil_right.mp h with ⟨-, h⟩
    rw [List.mem_singleton.mp h]
    exact ⟨rfl, rfl, Or.inl rfl⟩
  · rcases List.mem_map.mp h with ⟨ln, -, h⟩
    rw [← h]
    exact ⟨rfl, rfl, Or.inr (Or.inl rfl)⟩
  · rcases List.mem_ite_nil_left.mp h with ⟨-, h⟩
    rw [List.mem_singleton.mp h]
    exact ⟨rfl, rfl, Or.inr (Or.inr rfl)⟩

theorem per_seq_block_meta (regs : Finset (List Char)) (i : Nat) (b : List Char)
    (f : Finding) (h : f ∈ per_seq_block regs i b) :
    f.kind = some BlockKind.seq ∧ f.blockIndex = some i ∧
      (f.category = Category.MismatchedBeginEnd ∨
        f.category = Category.BlockingInSeq ∨
        f.category = Category.UndeclaredRegAssignment) := by
  simp only [per_seq_block, List.mem_append] at h
  rcases h with (h | h) | h
  · rcases List.mem_ite_nil_right.mp h with ⟨-, h⟩
    rw [List.mem_singleton.mp h]
    exact ⟨rfl, rfl, Or.inl rfl⟩
  · rcases List.mem_map.mp h with ⟨ln, -, h⟩
    rw [← h]
    exact ⟨rfl, rfl, Or.inr (Or.inl rfl)⟩
  · rcases List.mem_ite_nil_left.mp h with ⟨-, h⟩
    rw [List.mem_singleton.mp h]
    exact ⟨rfl, rfl, Or.inr (Or.inr rfl)⟩

theorem mem_blocks_findings (perBlock : Nat → List Char → List Finding) :
    ∀ (blocks : List (List Char)) (start : Nat) (f : Finding),
      f ∈ blocks_findings perBlock start blocks ↔
        ∃ i b, blocks.get? i = some b ∧ f ∈ perBlock (start + i) b := by
  intro blocks
  induction blocks with
  | nil =>
    intro start f
    simp [blocks_findings]
  | cons b0 rest ih =>
    intro start f
    simp only [blocks_findings, List.mem_append]
    constructor
    · rintro (h | h)
      · exact ⟨0, b0, rfl, by simpa using h⟩
      · rcases (ih (start + 1) f).mp h with ⟨i, b, hget, hmem⟩
        refine ⟨i + 1, b, by simpa using hget, ?_⟩
        have heq : start + 1 + i = start + (i + 1) := by omega
        rw [← heq]
        exact hmem
    · rintro ⟨i, b, hget, hmem⟩
      match i, hget, hmem with
      | 0, hget, hmem =>
        left
        obtain rfl : b0 = b := by simpa using hget
        simpa using hmem
      | i + 1, hget, hmem =>
        right
        refine (ih (start + 1) f).mpr ⟨i, b, by simpa using hget, ?_⟩
        have heq : start + 1 + i = start + (i + 1) := by omega
        rw [heq]
        exact hmem

theorem blocks_findings_index_ge (perBlock : Nat → List Char → List Finding)
    (hIdx : ∀ i b f, f ∈ perBlock i b → f.blockIndex = some i) :
    ∀ (blocks : List (List Char)) (start : Nat) (f : Finding),
      f ∈ blocks_findings perBlock start blocks →
        ∃ j, start ≤ j ∧ f.blockIndex = some j := by
  intro blocks start f h
  rcases (mem_blocks_findings perBlock blocks start f).mp h with ⟨i, b, -, hmem⟩
  exact ⟨start + i, Nat.le_add_right _ _, hIdx _ _ _ hmem⟩

theorem filter_blocks_findings_get (perBlock : Nat → List Char → List Finding)
    (hIdx : ∀ i b f, f ∈ perBlock i b → f.blockIndex = some i)
    (q : Finding → Bool) :
    ∀ (blocks : List (List Char)) (start i : Nat) (b : List Char),
      blocks.get? i = some b →
      (∀ f, q f = true → f.blockIndex = some (start + i)) →
      (blocks_findings perBlock start blocks).filter q =
        (perBlock (start + i) b).filter q := by
  intro blocks
  induction blocks with
  | nil => intro start i b hget _; simp at hget
  | cons b0 rest ih =>
    intro start i b hget hq
    match i, hget with
    | 0, hget =>
      obtain rfl : b0 = b := by simpa using hget
      simp only [blocks_findings, List.filter_append]
      have hrest : (blocks_findings perBlock (start + 1) rest).filter q = [] := by
        rw [List.filter_eq_nil_iff]
        intro f hf hqf
        rcases blocks_findings_index_ge perBlock hIdx rest (start + 1) f hf with ⟨j, hj, hidx⟩
        have h2 := hq f hqf
        rw [hidx] at h2
        have h3 : j = start + 0 := Option.some.inj h2
        omega
      rw [hrest, List.append_nil, Nat.add_zero]
    | i + 1, hget =>
      have hfirst : (perBlock start b0).filter q = [] := by
        rw [List.filter_eq_nil_iff]
        intro f hf hqf
        have h1 := hIdx start b0 f hf
        have h2 := hq f hqf
        rw [h1] at h2
        have : start = start + (i + 1) := Option.some.inj h2
        omega
      simp only [blocks_findings, List.filter_append, hfirst, List.nil_append]
      have hstep : start + 1 + i = start + (i + 1) := by omega
      rw [ih (start + 1) i b (by simpa using hget)
        (fun f hf => by rw [hq f hf, hstep])]
      rw [hstep]

theorem selFun_index (cat : Category) (k : BlockKind) (n : Nat) (f : Finding)
    (h : selFun cat k n f = true) : f.blockIndex = some n :=
  (of_decide_eq_true h).2.2

theorem selFun_kind (cat : Category) (k : BlockKind) (n : Nat) (f : Finding)
    (h : selFun cat k n f = true) : f.kind = some k :=
  (of_decide_eq_true h).2.1

theorem selFun_cat (cat : Category) (k : BlockKind) (n : Nat) (f : Finding)
    (h : selFun cat k n f = true) : f.category = cat :=
  (of_decide_eq_true h).1

/-- The findings that `findingsFor` selects for combinational block `i + 1`
are exactly that block's, filtered by the selector: the port and module
checks attach no block kind, and sequential blocks carry the other kind. -/
theorem findingsFor_analyze_comb (text : List Char) (cat : Category) (i : Nat)
    (b : List Char) (h : (find_blocks_comb text).get? i = some b) :
    findingsFor (analyze text) cat BlockKind.comb (i + 1) =
      (per_comb_block (find_declared_regs text) (i + 1) b).filter
        (selFun cat BlockKind.comb (i + 1)) := by
  simp only [findingsFor, analyze, analyze_always_blocks, List.filter_append]
  have hport : (check_port_usage text).filter (selFun cat BlockKind.comb (i + 1)) = [] := by
    rw [List.filter_eq_nil_iff]
    intro f hf hsel
    have hk := selFun_kind _ _ _ _ hsel
    simp only [check_port_usage] at hf
    rcases List.mem_ite_nil_left.mp hf with ⟨-, hf⟩
    rw [List.mem_singleton.mp hf] at hk
    cases hk
  have hmod : (check_module_endmodule text).filter (selFun cat BlockKind.comb (i + 1)) = [] := by
    rw [List.filter_eq_nil_iff]
    intro f hf hsel
    have hk := selFun_kind _ _ _ _ hsel
    simp only [check_module_endmodule] at hf
    rcases List.mem_ite_nil_left.mp hf with ⟨-, hf⟩
    rw [List.mem_singleton.mp hf] at hk
    cases hk
  have hseq : (blocks_findings (per_seq_block (find_declared_regs text)) 1
      (find_blocks_seq text)).filter (selFun cat BlockKind.comb (i + 1)) = [] := by
    rw [List.filter_eq_nil_iff]
    intro f hf hsel
    have hk := selFun_kind _ _ _ _ hsel
    rcases (mem_blocks_findings _ _ _ f).mp hf with ⟨j, bj, -, hmem⟩
    have := (per_seq_block_meta _ _ _ f hmem).1
    rw [this] at hk
    cases hk
  rw [hport, hmod, hseq, List.nil_append, List.nil_append, List.append_nil]
  have h1i : (1 : Nat) + i = i + 1 := by omega
  rw [← h1i]
  exact filter_blocks_findings_get (per_comb_block (find_declared_regs text))
    (fun j bj f hf => (per_comb_block_meta _ _ _ f hf).2.1)
    (selFun cat BlockKind.comb (1 + i)) (find_blocks_comb text) 1 i b h
    (fun f hf => selFun_index _ _ _ _ hf)

/-- Sequential counterpart of `findingsFor_analyze_comb`. -/
theorem findingsFor_analyze_seq (text : List Char) (cat : Category) (i : Nat)
    (b : List Char) (h : (find_blocks_seq text).get? i = some b) :
    findingsFor (analyze text) cat BlockKind.seq (i + 1) =
      (per_seq_block (find_declared_regs text) (i + 1) b).filter
        (selFun cat BlockKind.seq (i + 1)) := by
  simp only [findingsFor, analyze, analyze_always_blocks, List.filter_append]
  have hport : (check_port_usage text).filter (selFun cat BlockKind.seq (i + 1)) = [] := by
    rw [List.filter_eq_nil_iff]
    intro f hf hsel
    have hk := selFun_kind _ _ _ _ hsel
    simp only [check_port_usage] at hf
    rcases List.mem_ite_nil_left.mp hf with ⟨-, hf⟩
    rw [List.mem_singleton.mp hf] at hk
    cases hk
  have hmod : (check_module_endmodule text).filter (selFun cat BlockKind.seq (i + 1)) = [] := by
    rw [List.filter_eq_nil_iff]
    intro f hf hsel
    have hk := selFun_kind _ _ _ _ hsel
    simp only [check_module_endmodule] at hf
    rcases List.mem_ite_nil_left.mp hf with ⟨-, hf⟩
    rw [List.mem_singleton.mp hf] at hk
    cases hk
  have hcomb : (blocks_findings (per_comb_block (find_declared_regs text)) 1
      (find_blocks_comb text)).filter (selFun cat BlockKind.seq (i + 1)) = [] := by
    rw [List.filter_eq_nil_iff]
    intro f hf hsel
    have hk := selFun_kind _ _ _ _ hsel
    rcases (mem_blocks_findings _ _ _ f).mp hf with ⟨j, bj, -, hmem⟩
    have := (per_comb_block_meta _ _ _ f hmem).1
    rw [this] at hk
    cases hk
  rw [hport, hmod, hcomb, List.nil_append, List.nil_append, List.nil_append]
  have h1i : (1 : Nat) + i = i + 1 := by omega
  rw [← h1i]
  exact filter_blocks_findings_get (per_seq_block (find_declared_regs text))
    (fun j bj f hf => (per_seq_block_meta _ _ _ f hf).2.1)
    (selFun cat BlockKind.seq (1 + i)) (find_blocks_seq text) 1 i b h
    (fun f hf => selFun_index _ _ _ _ hf)

theorem filter_selFun_cat_ne (cat cat' : Category) (k : BlockKind) (n : Nat)
    (l : List Finding) (h : ∀ f ∈ l, f.category = cat') (hne : cat' ≠ cat) :
    l.filter (selFun cat k n) = [] := by
  rw [List.filter_eq_nil_iff]
  intro f hf hsel
  exact hne ((h f hf) ▸ selFun_cat cat k n f hsel)

theorem filter_selFun_all (cat : Category) (k : BlockKind) (n : Nat)
    (l : List Finding)
    (h : ∀ f ∈ l, f.category = cat ∧ f.kind = some k ∧ f.blockIndex = some n) :
    l.filter (selFun cat k n) = l := by
  rw [List.filter_eq_self]
  intro f hf
  exact decide_eq_true (h f hf)

theorem mem_beginend_part (k : Option BlockKind) (n : Option Nat) (cond : Bool)
    (f : Finding)
    (h : f ∈ (if cond then [⟨Category.MismatchedBeginEnd, k, n, FindingDetail.noDetail⟩]
              else ([] : List Finding))) :
    f = ⟨Category.MismatchedBeginEnd, k, n, FindingDetail.noDetail⟩ := by
  rcases List.mem_ite_nil_right.mp h with ⟨-, h⟩
  exact List.mem_singleton.mp h

theorem mem_reg_part (k : Option BlockKind) (n : Option Nat) (s regs : Finset (List Char))
    (f : Finding)
    (h : f ∈ (if s \ regs = ∅ then ([] : List Finding)
              else [⟨Category.UndeclaredRegAssignment, k, n, FindingDetail.names (s \ regs)⟩])) :
    f = ⟨Category.UndeclaredRegAssignment, k, n, FindingDetail.names (s \ regs)⟩ := by
  rcases List.mem_ite_nil_left.mp h with ⟨-, h⟩
  exact List.mem_singleton.mp h

/-- Filtering a combinational block's findings for `NonBlockingInComb` keeps
exactly the per-line findings of `check_non_blocking_in_comb`. -/
theorem per_comb_filter_nonblocking (regs : Finset (List Char)) (n : Nat) (b : List Char) :
    (per_comb_block regs n b).filter (selFun Category.NonBlockingInComb BlockKind.comb n) =
      (check_non_blocking_in_comb b).map
        (fun ln => ⟨Category.NonBlockingInComb, some BlockKind.comb, some n,
          FindingDetail.line ln⟩) := by
  have hA : (if containsSub beginChars b && !match_begin_end b then
      [(⟨Category.MismatchedBeginEnd, some BlockKind.comb, some n,
        FindingDetail.noDetail⟩ : Finding)] else []).filter
        (selFun Category.NonBlockingInComb BlockKind.comb n) = [] :=
    filter_selFun_cat_ne _ Category.MismatchedBeginEnd _ _ _
      (fun f hf => by rw [mem_beginend_part _ _ _ f hf]) (by intro h; cases h)
  have hB : ((check_non_blocking_in_comb b).map
      (fun ln => (⟨Category.NonBlockingInComb, some BlockKind.comb, some n,
        FindingDetail.line ln⟩ : Finding))).filter
        (selFun Category.NonBlockingInComb BlockKind.comb n) =
      (check_non_blocking_in_comb b).map
        (fun ln => ⟨Category.NonBlockingInComb, some BlockKind.comb, some n,
          FindingDetail.line ln⟩) :=
    filter_selFun_all _ _ _ _
      (fun f hf => by
        rcases List.mem_map.mp hf with ⟨ln, -, h⟩
        rw [← h]
        exact ⟨rfl, rfl, rfl⟩)
  have hC : (if find_assigned_variables b \ regs = ∅ then []
      else [(⟨Category.UndeclaredRegAssignment, some BlockKind.comb, some n,
        FindingDetail.names (find_assigned_variables b \ regs)⟩ : Finding)]).filter
        (selFun Category.NonBlockingInComb BlockKind.comb n) = [] :=
    filter_selFun_cat_ne _ Category.UndeclaredRegAssignment _ _ _
      (fun f hf => by rw [mem_reg_part _ _ _ _ f hf]) (by intro h; cases h)
  simp only [per_comb_block, List.filter_append, hA, hB, hC,
    List.nil_append, List.append_nil]

/-- Filtering a sequential block's findings for `BlockingInSeq` keeps exactly
the per-line findings of `check_blocking_in_seq`. -/
theorem per_seq_filter_blocking (regs : Finset (List Char)) (n : Nat) (b : List Char) :
    (per_seq_block regs n b).filter (selFun Category.BlockingInSeq BlockKind.seq n) =
      (check_blocking_in_seq b).map
        (fun ln => ⟨Category.BlockingInSeq, some BlockKind.seq, some n,
          FindingDetail.line ln⟩) := by
  have hA : (if containsSub beginChars b && !match_begin_end b then
      [(⟨Category.MismatchedBeginEnd, some BlockKind.seq, some n,
        FindingDetail.noDetail⟩ : Finding)] else []).filter
        (selFun Category.BlockingInSeq BlockKind.seq n) = [] :=
    filter_selFun_cat_ne _ Category.MismatchedBeginEnd _ _ _
      (fun f hf => by rw [mem_beginend_part _ _ _ f hf]) (by intro h; cases h)
  have hB : ((check_blocking_in_seq b).map
      (fun ln => (⟨Category.BlockingInSeq, some BlockKind.seq, some n,
        FindingDetail.line ln⟩ : Finding))).filter
        (selFun Category.BlockingInSeq BlockKind.seq n) =
      (check_blocking_in_seq b).map
        (fun ln => ⟨Category.BlockingInSeq, some BlockKind.seq, some n,
          FindingDetail.line ln⟩) :=
    filter_selFun_all _ _ _ _
      (fun f hf => by
        rcases List.mem_map.mp hf with ⟨ln, -, h⟩
        rw [← h]
        exact ⟨rfl, rfl, rfl⟩)
  have hC : (if find_assigned_variables b \ regs = ∅ then []
      else [(⟨Category.UndeclaredRegAssignment, some BlockKind.seq, some n,
        FindingDetail.names (find_assigned_variables b \ regs)⟩ : Finding)]).filter
        (selFun Category.BlockingInSeq BlockKind.seq n) = [] :=
    filter_selFun_cat_ne _ Category.UndeclaredRegAssignment _ _ _
      (fun f hf => by rw [mem_reg_part _ _ _ _ f hf]) (by intro h; cases h)
  simp only [per_seq_block, List.filter_append, hA, hB, hC,
    List.nil_append, List.append_nil]

/-- Filtering a combinational block's findings for `MismatchedBeginEnd` keeps
exactly the delimiter-balance finding (emitted only when the body contains
`begin` and the two counts differ). -/
theorem per_comb_filter_beginend (regs : Finset (List Char)) (n : Nat) (b : List Char) :
    (per_comb_block regs n b).filter (selFun Category.MismatchedBeginEnd BlockKind.comb n) =
      (if containsSub beginChars b && !match_begin_end b then
        [⟨Category.MismatchedBeginEnd, some BlockKind.comb, some n, FindingDetail.noDetail⟩]
       else []) := by
  have hA : (if containsSub beginChars b && !match_begin_end b then
      [(⟨Category.MismatchedBeginEnd, some BlockKind.comb, some n,
        FindingDetail.noDetail⟩ : Finding)] else []).filter
        (selFun Category.MismatchedBeginEnd BlockKind.comb n) =
      (if containsSub beginChars b && !match_begin_end b then
        [(⟨Category.MismatchedBeginEnd, some BlockKind.comb, some n,
          FindingDetail.noDetail⟩ : Finding)] else []) :=
    filter_selFun_all _ _ _ _
      (fun f hf => by rw [mem_beginend_part _ _ _ f hf]; exact ⟨rfl, rfl, rfl⟩)
  have hB : ((check_non_blocking_in_comb b).map
      (fun ln => (⟨Category.NonBlockingInComb, some BlockKind.comb, some n,
        FindingDetail.line ln⟩ : Finding))).filter
        (selFun Category.MismatchedBeginEnd BlockKind.comb n) = [] :=
    filter_selFun_cat_ne _ Category.NonBlockingInComb _ _ _
      (fun f hf => by
        rcases List.mem_map.mp hf with ⟨ln, -, h⟩
        rw [← h]) (by intro h; cases h)
  have hC : (if find_assigned_variables b \ regs = ∅ then []
      else [(⟨Category.UndeclaredRegAssignment, some BlockKind.comb, some n,
        FindingDetail.names (find_assigned_variables b \ regs)⟩ : Finding)]).filter
        (selFun Category.MismatchedBeginEnd BlockKind.comb n) = [] :=
    filter_selFun_cat_ne _ Category.UndeclaredRegAssignment _ _ _
      (fun f hf => by rw [mem_reg_part _ _ _ _ f hf]) (by intro h; cases h)
  simp only [per_comb_block, List.filter_append, hA, hB, hC,
    List.nil_append, List.append_nil]

/-- Sequential counterpart of `per_comb_filter_beginend`. -/
theorem per_seq_filter_beginend (regs : Finset (List Char)) (n : Nat) (b : List Char) :
    (per_seq_block regs n b).filter (selFun Category.MismatchedBeginEnd BlockKind.seq n) =
      (if containsSub beginChars b && !match_begin_end b then
        [⟨Category.MismatchedBeginEnd, some BlockKind.seq, some n, FindingDetail.noDetail⟩]
       else []) := by
  have hA : (if containsSub beginChars b && !match_begin_end b then
      [(⟨Category.MismatchedBeginEnd, some BlockKind.seq, some n,
        FindingDetail.noDetail⟩ : Finding)] else []).filter
        (selFun Category.MismatchedBeginEnd BlockKind.seq n) =
      (if containsSub beginChars b && !match_begin_end b then
        [(⟨Category.MismatchedBeginEnd, some BlockKind.seq, some n,
          FindingDetail.noDetail⟩ : Finding)] else []) :=
    filter_selFun_all _ _ _ _
      (fun f hf => by rw [mem_beginend_part _ _ _ f hf]; exact ⟨rfl, rfl, rfl⟩)
  have hB : ((check_blocking_in_seq b).map
      (fun ln => (⟨Category.BlockingInSeq, some BlockKind.seq, some n,
        FindingDetail.line ln⟩ : Finding))).filter
        (selFun Category.MismatchedBeginEnd BlockKind.seq n) = [] :=
    filter_selFun_cat_ne _ Category.BlockingInSeq _ _ _
      (fun f hf => by
        rcases List.mem_map.mp hf with ⟨ln, -, h⟩
        rw [← h]) (by intro h; cases h)
  have hC : (if find_assigned_variables b \ regs = ∅ then []
      else [(⟨Category.UndeclaredRegAssignment, some BlockKind.seq, some n,
        FindingDetail.names (find_assigned_variables b \ regs)⟩ : Finding)]).filter
        (selFun Category.MismatchedBeginEnd BlockKind.seq n) = [] :=
    filter_selFun_cat_ne _ Category.UndeclaredRegAssignment _ _ _
      (fun f hf => by rw [mem_reg_part _ _ _ _ f hf]) (by intro h; cases h)
  simp only [per_seq_block, List.filter_append, hA, hB, hC,
    List.nil_append, List.append_nil]

/-- Filtering a combinational block's findings for `UndeclaredRegAssignment`
keeps exactly the register-declaration finding. -/
theorem per_comb_filter_reg (regs : Finset (List Char)) (n : Nat) (b : List Char) :
    (per_comb_block regs n b).filter
        (selFun Category.UndeclaredRegAssignment BlockKind.comb n) =
      (if find_assigned_variables b \ regs = ∅ then []
       else [⟨Category.UndeclaredRegAssignment, some BlockKind.comb, some n,
              FindingDetail.names (find_assigned_variables b \ regs)⟩]) := by
  have hA : (if containsSub beginChars b && !match_begin_end b then
      [(⟨Category.MismatchedBeginEnd, some BlockKind.comb, some n,
        FindingDetail.noDetail⟩ : Finding)] else []).filter
        (selFun Category.UndeclaredRegAssignment BlockKind.comb n) = [] :=
    filter_selFun_cat_ne _ Category.MismatchedBeginEnd _ _ _
      (fun f hf => by rw [mem_beginend_part _ _ _ f hf]) (by intro h; cases h)
  have hB : ((check_non_blocking_in_comb b).map
      (fun ln => (⟨Category.NonBlockingInComb, some BlockKind.comb, some n,
        FindingDetail.line ln⟩ : Finding))).filter
        (selFun Category.UndeclaredRegAssignment BlockKind.comb n) = [] :=
    filter_selFun_cat_ne _ Category.NonBlockingInComb _ _ _
      (fun f hf => by
        rcases List.mem_map.mp hf with ⟨ln, -, h⟩
        rw [← h]) (by intro h; cases h)
  have hC : (if find_assigned_variables b \ regs = ∅ then []
      else [(⟨Category.UndeclaredRegAssignment, some BlockKind.comb, some n,
        FindingDetail.names (find_assigned_variables b \ regs)⟩ : Finding)]).filter
        (selFun Category.UndeclaredRegAssignment BlockKind.comb n) =
      (if find_assigned_variables b \ regs = ∅ then []
       else [(⟨Category.UndeclaredRegAssignment, some BlockKind.comb, some n,
         FindingDetail.names (find_assigned_variables b \ regs)⟩ : Finding)]) :=
    filter_selFun_all _ _ _ _
      (fun f hf => by rw [mem_reg_part _ _ _ _ f hf]; exact ⟨rfl, rfl, rfl⟩)
  simp only [per_comb_block, List.filter_append, hA, hB, hC,
    List.nil_append, List.append_nil]

/-- Sequential counterpart of `per_comb_filter_reg`. -/
theorem per_seq_filter_reg (regs : Finset (List Char)) (n : Nat) (b : List Char) :
    (per_seq_block regs n b).filter
        (selFun Category.UndeclaredRegAssignment BlockKind.seq n) =
      (if find_assigned_variables b \ regs = ∅ then []
       else [⟨Category.UndeclaredRegAssignment, some BlockKind.seq, some n,
              FindingDetail.names (find_assigned_variables b \ regs)⟩]) := by
  have hA : (if containsSub beginChars b && !match_begin_end b then
      [(⟨Category.MismatchedBeginEnd, some BlockKind.seq, some n,
        FindingDetail.noDetail⟩ : Finding)] else []).filter
        (selFun Category.UndeclaredRegAssignment BlockKind.seq n) = [] :=
    filter_selFun_cat_ne _ Category.MismatchedBeginEnd _ _ _
      (fun f hf => by rw [mem_beginend_part _ _ _ f hf]) (by intro h; cases h)
  have hB : ((check_blocking_in_seq b).map
      (fun ln => (⟨Category.BlockingInSeq, some BlockKind.seq, some n,
        FindingDetail.line ln⟩ : Finding))).filter
        (selFun Category.UndeclaredRegAssignment BlockKind.seq n) = [] :=
    filter_selFun_cat_ne _ Category.BlockingInSeq _ _ _
      (fun f hf => by
        rcases List.mem_map.mp hf with ⟨ln, -, h⟩
        rw [← h]) (by intro h; cases h)
  have hC : (if find_assigned_variables b \ regs = ∅ then []
      else [(⟨Category.UndeclaredRegAssignment, some BlockKind.seq, some n,
        FindingDetail.names (find_assigned_variables b \ regs)⟩ : Finding)]).filter
        (selFun Category.UndeclaredRegAssignment BlockKind.seq n) =
      (if find_assigned_variables b \ regs = ∅ then []
       else [(⟨Category.UndeclaredRegAssignment, some BlockKind.seq, some n,
         FindingDetail.names (find_assigned_variables b \ regs)⟩ : Finding)]) :=
    filter_selFun_all _ _ _ _
      (fun f hf => by rw [mem_reg_part _ _ _ _ f hf]; exact ⟨rfl, rfl, rfl⟩)
  simp only [per_seq_block, List.filter_append, hA, hB, hC,
    List.nil_append, List.append_nil]

theorem filter_cat_ne (cat : Category) (l : List Finding)
    (h : ∀ f ∈ l, f.category ≠ cat) :
    l.filter (fun f => decide (f.category = cat)) = [] := by
  rw [List.filter_eq_nil_iff]
  intro f hf hsel
  exact h f hf (of_decide_eq_true hsel)

theorem filter_cat_all (cat : Category) (l : List Finding)
    (h : ∀ f ∈ l, f.category = cat) :
    l.filter (fun f => decide (f.category = cat)) = l := by
  rw [List.filter_eq_self]
  intro f hf
  exact decide_eq_true (h f hf)

/-- The `UnusedPort` findings of a whole run are exactly the port check's
output: only `check_port_usage` emits that category. -/
theorem findingsCat_unused (text : List Char) :
    findingsCat (analyze text) Category.UnusedPort = check_port_usage text := by
  simp only [findingsCat, analyze, analyze_always_blocks, List.filter_append]
  rw [filter_cat_all _ _
      (fun f hf => by
        simp only [check_port_usage] at hf
        rcases List.mem_ite_nil_left.mp hf with ⟨-, hf⟩
        rw [List.mem_singleton.mp hf]),
    filter_cat_ne _ _
      (fun f hf => by
        simp only [check_module_endmodule] at hf
        rcases List.mem_ite_nil_left.mp hf with ⟨-, hf⟩
        rw [List.mem_singleton.mp hf]
        intro h; cases h),
    filter_cat_ne _ _
      (fun f hf => by
        rcases (mem_blocks_findings _ _ _ f).mp hf with ⟨j, bj, -, hmem⟩
        rcases (per_comb_block_meta _ _ _ f hmem).2.2 with h | h | h <;>
          (rw [h]; intro hx; cases hx)),
    filter_cat_ne _ _
      (fun f hf => by
        rcases (mem_blocks_findings _ _ _ f).mp hf with ⟨j, bj, -, hmem⟩
        rcases (per_seq_block_meta _ _ _ f hmem).2.2 with h | h | h <;>
          (rw [h]; intro hx; cases hx)),
    List.append_nil, List.append_nil, List.append_nil]

/-- The `MismatchedModuleEndmodule` findings of a whole run are exactly the
module-balance check's output. -/
theorem findingsCat_module (text : List Char) :
    findingsCat (analyze text) Category.MismatchedModuleEndmodule =
      check_module_endmodule text := by
  simp only [findingsCat, analyze, analyze_always_blocks, List.filter_append]
  rw [filter_cat_ne _ _
      (fun f hf => by
        simp only [check_port_usage] at hf
        rcases List.mem_ite_nil_left.mp hf with ⟨-, hf⟩
        rw [List.mem_singleton.mp hf]
        intro h; cases h),
    filter_cat_all _ _
      (fun f hf => by
        simp only [check_module_endmodule] at hf
        rcases List.mem_ite_nil_left.mp hf with ⟨-, hf⟩
        rw [List.mem_singleton.mp hf]),
    filter_cat_ne _ _
      (fun f hf => by
        rcases (mem_blocks_findings _ _ _ f).mp hf with ⟨j, bj, -, hmem⟩
        rcases (per_comb_block_meta _ _ _ f hmem).2.2 with h | h | h <;>
          (rw [h]; intro hx; cases hx)),
    filter_cat_ne _ _
      (fun f hf => by
        rcases (mem_blocks_findings _ _ _ f).mp hf with ⟨j, bj, -, hmem⟩
        rcases (per_seq_block_meta _ _ _ f hmem).2.2 with h | h | h <;>
          (rw [h]; intro hx; cases hx)),
    List.nil_append, List.append_nil, List.append_nil]

/-! ## Lemmas: the port generator's insertion-ordered grouping -/

theorem addRange_cons_same (k : List Char × Dir) (r : Option (Nat × Nat))
    (rs : List (Option (Nat × Nat))) (rest : Groups) :
    addRange k r ((k, rs) :: rest) = (k, rs ++ [r]) :: rest := by
  simp [addRange]

theorem addRange_cons_other (key k : List Char × Dir) (r : Option (Nat × Nat))
    (rs : List (Option (Nat × Nat))) (rest : Groups) (hk : ¬ (k = key)) :
    addRange key r ((k, rs) :: rest) = (k, rs) :: addRange key r rest := by
  simp [addRange, hk]

theorem addRange_keys (key : List Char × Dir) (r : Option (Nat × Nat)) :
    ∀ (acc : Groups),
      (addRange key r acc).map Prod.fst =
        if key ∈ acc.map Prod.fst then acc.map Prod.fst else acc.map Prod.fst ++ [key] := by
  intro acc
  induction acc with
  | nil =>
    simp only [List.map_nil]
    rw [if_neg (List.not_mem_nil key)]
    rfl
  | cons e rest ih =>
    match e with
    | (k, rs) =>
      by_cases hk : k = key
      · subst hk
        rw [addRange_cons_same]
        simp only [List.map_cons]
        rw [if_pos (List.mem_cons_self k (rest.map Prod.fst))]
      · rw [addRange_cons_other key k r rs rest hk]
        simp only [List.map_cons, ih]
        by_cases hmem : key ∈ rest.map Prod.fst
        · rw [if_pos hmem, if_pos (List.mem_cons_of_mem _ hmem)]
        · rw [if_neg hmem, if_neg (fun h => by
            rcases List.mem_cons.mp h with h | h
            · exact hk h.symm
            · exact hmem h)]
          rfl

theorem addRange_lookup_same (key : List Char × Dir) (r : Option (Nat × Nat)) :
    ∀ (acc : Groups), lookupG (addRange key r acc) key = lookupG acc key ++ [r] := by
  intro acc
  induction acc with
  | nil =>
    show lookupG [(key, [r])] key = lookupG [] key ++ [r]
    simp [lookupG]
  | cons e rest ih =>
    match e with
    | (k, rs) =>
      by_cases hk : k = key
      · subst hk
        rw [addRange_cons_same]
        simp [lookupG]
      · rw [addRange_cons_other key k r rs rest hk]
        simp only [lookupG, if_neg hk]
        exact ih

theorem addRange_lookup_other (key key' : List Char × Dir) (r : Option (Nat × Nat))
    (hne : key' ≠ key) :
    ∀ (acc : Groups), lookupG (addRange key r acc) key' = lookupG acc key' := by
  intro acc
  induction acc with
  | nil =>
    show lookupG [(key, [r])] key' = lookupG [] key'
    simp only [lookupG]
    rw [if_neg (fun h => hne h.symm)]
  | cons e rest ih =>
    match e with
    | (k, rs) =>
      by_cases hk : k = key
      · subst hk
        rw [addRange_cons_same]
        simp only [lookupG]
        rw [if_neg (fun h => hne h.symm), if_neg (fun h => hne h.symm)]
      · rw [addRange_cons_other key k r rs rest hk]
        simp only [lookupG]
        by_cases hkk : k = key'
        · rw [if_pos hkk, if_pos hkk]
        · rw [if_neg hkk, if_neg hkk]
          exact ih

theorem addRange_nodup (key : List Char × Dir) (r : Option (Nat × Nat))
    (acc : Groups) (h : (acc.map Prod.fst).Nodup) :
    ((addRange key r acc).map Prod.fst).Nodup := by
  rw [addRange_keys]
  by_cases hmem : key ∈ acc.map Prod.fst
  · rw [if_pos hmem]
    exact h
  · rw [if_neg hmem]
    exact List.Nodup.append h (List.nodup_singleton key)
      (List.disjoint_singleton.mpr hmem)

theorem dedupFirstAux_congr_seen {K : Type} [DecidableEq K] (s1 s2 : List K)
    (h : ∀ x, x ∈ s1 ↔ x ∈ s2) :
    ∀ (l : List K), dedupFirstAux s1 l = dedupFirstAux s2 l := by
  intro l
  induction l generalizing s1 s2 with
  | nil => simp [dedupFirstAux]
  | cons k rest ih =>
    by_cases hk : k ∈ s1
    · simp only [dedupFirstAux, if_pos hk, if_pos ((h k).mp hk)]
      exact ih s1 s2 h
    · simp only [dedupFirstAux, if_neg hk, if_neg (fun hx => hk ((h k).mpr hx))]
      rw [ih (k :: s1) (k :: s2) (by intro x; simp [h x])]

theorem buildGroups_keys :
    ∀ (kl : List PinRow) (acc g : Groups), buildGroups acc kl = some g →
      g.map Prod.fst = acc.map Prod.fst ++
        dedupFirstAux (acc.map Prod.fst) (kl.filterMap keyOf) := by
  intro kl
  induction kl with
  | nil =>
    intro acc g h
    simp only [buildGroups, Option.some.injEq] at h
    subst h
    simp [dedupFirstAux]
  | cons r rest ih =>
    intro acc g h
    simp only [buildGroups] at h
    match hp : parsePortName r.portName, h with
    | none, h => cases h
    | some (base, rng), h =>
      have h' : buildGroups (addRange (base, dirOf r.fromTo) rng acc) rest = some g := h
      have hkey : keyOf r = some (base, dirOf r.fromTo) := by
        simp [keyOf, hp]
      have hfm : (r :: rest).filterMap keyOf =
          (base, dirOf r.fromTo) :: rest.filterMap keyOf := by
        simp [List.filterMap_cons, hkey]
      rw [hfm]
      have ih' := ih (addRange (base, dirOf r.fromTo) rng acc) g h'
      rw [ih', addRange_keys]
      by_cases hmem : (base, dirOf r.fromTo) ∈ acc.map Prod.fst
      · rw [if_pos hmem]
        simp only [dedupFirstAux, if_pos hmem]
      · rw [if_neg hmem]
        simp only [dedupFirstAux, if_neg hmem]
        rw [dedupFirstAux_congr_seen (acc.map Prod.fst ++ [(base, dirOf r.fromTo)])
          ((base, dirOf r.fromTo) :: acc.map Prod.fst)
          (fun x => by
            rw [List.mem_append, List.mem_singleton, List.mem_cons]
            exact or_comm)]
        rw [List.append_assoc, List.singleton_append]

theorem buildGroups_lookup :
    ∀ (kl : List PinRow) (acc g : Groups) (key : List Char × Dir),
      buildGroups acc kl = some g →
      lookupG g key = lookupG acc key ++ contribOf kl key := by
  intro kl
  induction kl with
  | nil =>
    intro acc g key h
    simp only [buildGroups, Option.some.injEq] at h
    subst h
    simp [contribOf]
  | cons r rest ih =>
    intro acc g key h
    simp only [buildGroups] at h
    match hp : parsePortName r.portName, h with
    | none, h => cases h
    | some (base, rng), h =>
      have h' : buildGroups (addRange (base, dirOf r.fromTo) rng acc) rest = some g := h
      have hkey : keyOf r = some (base, dirOf r.fromTo) := by
        simp [keyOf, hp]
      have ih' := ih (addRange (base, dirOf r.fromTo) rng acc) g key h'
      by_cases hk : (base, dirOf r.fromTo) = key
      · subst hk
        rw [ih', addRange_lookup_same]
        have hcontrib : contribOf (r :: rest) (base, dirOf r.fromTo) =
            rng :: contribOf rest (base, dirOf r.fromTo) := by
          simp only [contribOf, List.filter_cons]
          rw [if_pos (by simp [hkey])]
          simp [List.filterMap_cons, hp]
        rw [hcontrib]
        simp
      · rw [ih', addRange_lookup_other _ _ _ (fun he => hk he.symm)]
        have hcontrib : contribOf (r :: rest) key = contribOf rest key := by
          simp only [contribOf, List.filter_cons]
          rw [if_neg (by simp [hkey]; exact hk)]
        rw [hcontrib]

theorem buildGroups_nodup :
    ∀ (kl : List PinRow) (acc g : Groups), buildGroups acc kl = some g →
      (acc.map Prod.fst).Nodup → (g.map Prod.fst).Nodup := by
  intro kl
  induction kl with
  | nil =>
    intro acc g h hn
    simp only [buildGroups, Option.some.injEq] at h
    subst h
    exact hn
  | cons r rest ih =>
    intro acc g h hn
    simp only [buildGroups] at h
    match hp : parsePortName r.portName, h with
    | none, h => cases h
    | some (base, rng), h =>
      have h' : buildGroups (addRange (base, dirOf r.fromTo) rng acc) rest = some g := h
      exact ih _ g h' (addRange_nodup _ rng acc hn)

theorem groups_reconstruct :
    ∀ (g : Groups), (g.map Prod.fst).Nodup →
      g = (g.map Prod.fst).map (fun k => (k, lookupG g k)) := by
  intro g
  induction g with
  | nil => intro _; rfl
  | cons e rest ih =>
    intro hn
    match e with
    | (k0, rs0) =>
      simp only [List.map_cons, List.nodup_cons] at hn
      simp only [List.map_cons]
      congr 1
      · simp [lookupG]
      · have hmapeq : (rest.map Prod.fst).map
            (fun k => (k, lookupG ((k0, rs0) :: rest) k)) =
            (rest.map Prod.fst).map (fun k => (k, lookupG rest k)) := by
          apply List.map_congr_left
          intro k hk
          have hne : ¬ (k0 = k) := fun he => hn.1 (he ▸ hk)
          simp [lookupG, hne]
        rw [hmapeq]
        exact ih hn.2

theorem opFollowsAssign_spaces_eq (tail : List Char) :
    ∀ (sp : List Char), (∀ c ∈ sp, isSpaceChar c = true) →
      opFollowsAssign (sp ++ '=' :: tail) = true := by
  intro sp
  induction sp with
  | nil => intro _; rfl
  | cons c rest ih =>
    intro h
    have hc := h c (List.mem_cons_self _ _)
    simp only [List.cons_append, opFollowsAssign, hc, if_true]
    exact ih (fun x hx => h x (List.mem_cons_of_mem _ hx))

/-! ## Claim theorems -/

/-- C1: the `UnusedPort` finding's detail set equals the declared-port set
minus the used-identifier set, with exactly one such finding emitted when the
difference is non-empty and none when it is empty; every declared port that
never appears (as a maximal word run) immediately before an
assignment/operator token is in the set; no identifier so appearing is in the
set; and appearing before a plain `=`/`<=` assignment token counts as
appearing before an operator token. -/
theorem C1_unused_port_check :
    (∀ text : List Char,
        findingsCat (analyze text) Category.UnusedPort =
          (if find_ports text \ find_logic_usage text = ∅ then []
           else [⟨Category.UnusedPort, none, none,
             FindingDetail.names (find_ports text \ find_logic_usage text)⟩])) ∧
    (∀ text w : List Char, w ∈ find_ports text → ¬ IdentBefore opFollowsLogic w text →
        w ∈ find_ports text \ find_logic_usage text) ∧
    (∀ text w : List Char, IdentBefore opFollowsLogic w text →
        w ∉ find_ports text \ find_logic_usage text) ∧
    (∀ text w : List Char, IdentBefore opFollowsAssign w text →
        IdentBefore opFollowsLogic w text) := by
  refine ⟨?_, ?_, ?_, ?_⟩
  · intro text
    rw [findingsCat_unused]
    rfl
  · intro text w hp hnu
    rw [Finset.mem_sdiff]
    exact ⟨hp, fun hu => hnu ((mem_find_logic_usage_iff text w).mp hu)⟩
  · intro text w hu hmem
    rw [Finset.mem_sdiff] at hmem
    exact hmem.2 ((mem_find_logic_usage_iff text w).mpr hu)
  · intro text w h
    obtain ⟨hne, hall, pre, post, heq, hb, hf⟩ := h
    exact ⟨hne, hall, pre, post, heq, hb, opFollowsAssign_le_logic post hf⟩

/-- Witness for C1 on a concrete file: port `a` is unused (one finding with
detail `{a}`), and the port `b`, used as an assignment target, is not in the
unused set. -/
theorem C1_unused_port_check_witness :
    findingsCat (analyze (("input a; output b; assign b = a;").data))
        Category.UnusedPort =
      [⟨Category.UnusedPort, none, none, FindingDetail.names {("a").data}⟩] ∧
    ("b").data ∉ find_ports (("input a; output b; assign b = a;").data) \
      find_logic_usage (("input a; output b; assign b = a;").data) := by
  constructor
  · exact (C1_unused_port_check.1 (("input a; output b; assign b = a;").data)).trans
      (by decide)
  · exact C1_unused_port_check.2.2.1 (("input a; output b; assign b = a;").data)
      (("b").data)
      ⟨by decide, by decide, ("input a; output b; assign ").data, (" = a;").data,
        by decide, Or.inr ⟨' ', by decide, by decide⟩, by decide⟩

/-- C2 counterexample: the sequential body `begin x <= y; z = w; end` is a
single line containing a `=` that is not part of a `<=` token, yet the code
emits no `BlockingInSeq` finding for it (the line also contains `<=`, and the
check skips any line containing that substring), refuting the claim as
stated. -/
theorem C2_blocking_in_seq_counterexample :
    find_blocks_seq (("always @(posedge clk) begin x <= y; z = w; end").data) =
      [("begin x <= y; z = w; end").data] ∧
    pySplitlines (("begin x <= y; z = w; end").data) =
      [("begin x <= y; z = w; end").data] ∧
    lineHasBareEq (("begin x <= y; z = w; end").data) = true ∧
    findingsFor (analyze (("always @(posedge clk) begin x <= y; z = w; end").data))
      Category.BlockingInSeq BlockKind.seq 1 = [] := by
  decide

/-- C2 (amended): for every sequential block body, a line produces exactly
one `BlockingInSeq` finding iff it contains `=` and does NOT contain the
substring `<=` anywhere (a line containing `<=` is never flagged, even when
it also contains a stand-alone `=`); the finding's detail is the stripped
line. -/
theorem C2_blocking_in_seq_amended :
    ∀ (text : List Char) (i : Nat) (b : List Char),
      (find_blocks_seq text).get? i = some b →
      findingsFor (analyze text) Category.BlockingInSeq BlockKind.seq (i + 1) =
        ((pySplitlines b).filter
          (fun ln => containsSub eqChars ln && !containsSub leChars ln)).map
          (fun ln => ⟨Category.BlockingInSeq, some BlockKind.seq, some (i + 1),
            FindingDetail.line (pyStrip ln)⟩) := by
  intro text i b h
  rw [findingsFor_analyze_seq text _ i b h, per_seq_filter_blocking]
  simp [check_blocking_in_seq, List.map_map, Function.comp]

/-- Witness for the amended C2 at a concrete sequential block. -/
theorem C2_blocking_in_seq_amended_witness :
    findingsFor (analyze (("always @(posedge c) q = d;").data))
      Category.BlockingInSeq BlockKind.seq 1 =
      [⟨Category.BlockingInSeq, some BlockKind.seq, some 1,
        FindingDetail.line (("q = d;").data)⟩] :=
  (C2_blocking_in_seq_amended (("always @(posedge c) q = d;").data) 0
    (("q = d;").data) (by decide)).trans (by decide)

/-- C3 counterexample: the combinational body `friend = 1;` has 0 textual
`begin` markers and 1 textual `end` marker (inside `friend`), so N ≠ M, yet
no `MismatchedBeginEnd` finding is emitted: the code only runs the balance
check when the body contains `begin`. -/
theorem C3_beginend_counterexample :
    find_blocks_comb (("always @(*) friend = 1;").data) = [("friend = 1;").data] ∧
    countSub beginChars (("friend = 1;").data) = 0 ∧
    countSub endChars (("friend = 1;").data) = 1 ∧
    findingsFor (analyze (("always @(*) friend = 1;").data))
      Category.MismatchedBeginEnd BlockKind.comb 1 = [] := by
  decide

/-- C3 (amended): for every procedural block body, with N the textual count
of `begin` and M of `end` in the raw body, a `MismatchedBeginEnd` finding for
the block is emitted iff the body contains `begin` AND N ≠ M. -/
theorem C3_beginend_amended :
    (∀ (text : List Char) (i : Nat) (b : List Char),
        (find_blocks_comb text).get? i = some b →
        findingsFor (analyze text) Category.MismatchedBeginEnd BlockKind.comb (i + 1) =
          (if containsSub beginChars b = true ∧
              countSub beginChars b ≠ countSub endChars b
           then [⟨Category.MismatchedBeginEnd, some BlockKind.comb, some (i + 1),
                 FindingDetail.noDetail⟩]
           else [])) ∧
    (∀ (text : List Char) (i : Nat) (b : List Char),
        (find_blocks_seq text).get? i = some b →
        findingsFor (analyze text) Category.MismatchedBeginEnd BlockKind.seq (i + 1) =
          (if containsSub beginChars b = true ∧
              countSub beginChars b ≠ countSub endChars b
           then [⟨Category.MismatchedBeginEnd, some BlockKind.seq, some (i + 1),
                 FindingDetail.noDetail⟩]
           else [])) := by
  have hiff : ∀ b : List Char, ((containsSub beginChars b && !match_begin_end b) = true) ↔
      (containsSub beginChars b = true ∧ countSub beginChars b ≠ countSub endChars b) := by
    intro b
    rw [Bool.and_eq_true, Bool.not_eq_true', match_begin_end]
    simp
  constructor
  · intro text i b h
    rw [findingsFor_analyze_comb text _ i b h, per_comb_filter_beginend,
      if_congr (hiff b) rfl rfl]
  · intro text i b h
    rw [findingsFor_analyze_seq text _ i b h, per_seq_filter_beginend,
      if_congr (hiff b) rfl rfl]

/-- Witness for the amended C3: a body with two `begin`s and one `end` gets
the finding. -/
theorem C3_beginend_amended_witness :
    findingsFor (analyze (("always @(posedge c) begin begin x <= 1; end").data))
      Category.MismatchedBeginEnd BlockKind.seq 1 =
      [⟨Category.MismatchedBeginEnd, some BlockKind.seq, some 1,
        FindingDetail.noDetail⟩] :=
  (C3_beginend_amended.2 (("always @(posedge c) begin begin x <= 1; end").data) 0
    (("begin begin x <= 1; end").data) (by decide)).trans (by decide)

/-- C4 counterexample: the text `module` has zero port declarations and zero
procedural blocks, yet its report is not finding-free — the module-balance
check fires (counts 1 and 0). -/
theorem C4_empty_input_counterexample :
    find_ports (("module").data) = ∅ ∧
    find_blocks_comb (("module").data) = [] ∧
    find_blocks_seq (("module").data) = [] ∧
    (analyze (("module").data)).findings =
      [⟨Category.MismatchedModuleEndmodule, none, none, FindingDetail.counts 1 0⟩] := by
  decide

/-- C4 (amended): for every input with zero port declarations, zero
procedural blocks AND equal whole-word `module`/`endmodule` counts, the
report has no findings in any category and zero block counts. -/
theorem C4_empty_input_amended :
    ∀ text : List Char, find_ports text = ∅ → find_blocks_comb text = [] →
      find_blocks_seq text = [] →
      countWordOcc moduleChars text = countWordOcc endmoduleChars text →
      analyze text = ⟨[], 0, 0⟩ := by
  intro text hp hc hs hm
  have h1 : check_port_usage text = [] := by
    simp [check_port_usage, hp]
  have h2 : check_module_endmodule text = [] := by
    simp [check_module_endmodule, hm]
  simp [analyze, analyze_always_blocks, h1, h2, hc, hs, blocks_findings]

/-- Witness for the amended C4 on a concrete port-free, block-free, balanced
text. -/
theorem C4_empty_input_amended_witness :
    analyze (("wire w1;").data) = ⟨[], 0, 0⟩ :=
  C4_empty_input_amended (("wire w1;").data) (by decide) (by decide) (by decide)
    (by decide)

/-- C5: for every procedural block, the assignment-target identifiers of the
block body minus the file-wide declared-register set yield one
`UndeclaredRegAssignment` finding carrying exactly that remainder set and the
block's index when the remainder is non-empty, and no finding when it is
empty; in the scenario with declared registers `{dataReg}` and sequential
body `tempReg <= in;` the finding's detail is `{tempReg}`. -/
theorem C5_undeclared_reg_check :
    (∀ (text : List Char) (i : Nat) (b : List Char),
        (find_blocks_comb text).get? i = some b →
        findingsFor (analyze text) Category.UndeclaredRegAssignment BlockKind.comb (i + 1) =
          (if find_assigned_variables b \ find_declared_regs text = ∅ then []
           else [⟨Category.UndeclaredRegAssignment, some BlockKind.comb, some (i + 1),
                 FindingDetail.names
                   (find_assigned_variables b \ find_declared_regs text)⟩])) ∧
    (∀ (text : List Char) (i : Nat) (b : List Char),
        (find_blocks_seq text).get? i = some b →
        findingsFor (analyze text) Category.UndeclaredRegAssignment BlockKind.seq (i + 1) =
          (if find_assigned_variables b \ find_declared_regs text = ∅ then []
           else [⟨Category.UndeclaredRegAssignment, some BlockKind.seq, some (i + 1),
                 FindingDetail.names
                   (find_assigned_variables b \ find_declared_regs text)⟩])) ∧
    (find_declared_regs (("reg dataReg; always @(posedge clk) tempReg <= in;").data) =
        {("dataReg").data} ∧
      findingsFor (analyze (("reg dataReg; always @(posedge clk) tempReg <= in;").data))
          Category.UndeclaredRegAssignment BlockKind.seq 1 =
        [⟨Category.UndeclaredRegAssignment, some BlockKind.seq, some 1,
          FindingDetail.names {("tempReg").data}⟩]) := by
  refine ⟨?_, ?_, ?_⟩
  · intro text i b h
    rw [findingsFor_analyze_comb text _ i b h, per_comb_filter_reg]
  · intro text i b h
    rw [findingsFor_analyze_seq text _ i b h, per_seq_filter_reg]
  · constructor
    · decide
    · decide

/-- Witness for C5 at a concrete block whose assignment target is not
declared. -/
theorem C5_undeclared_reg_check_witness :
    findingsFor (analyze (("always @(*) n1 = 0;").data))
      Category.UndeclaredRegAssignment BlockKind.comb 1 =
      [⟨Category.UndeclaredRegAssignment, some BlockKind.comb, some 1,
        FindingDetail.names {("n1").data}⟩] :=
  (C5_undeclared_reg_check.1 (("always @(*) n1 = 0;").data) 0
    (("n1 = 0;").data) (by decide)).trans (by decide)

/-- C6: with Nm the whole-word count of `module` and Ne of `endmodule` over
the whole file, exactly one `MismatchedModuleEndmodule` finding reporting
both counts is emitted when Nm ≠ Ne and none when they are equal; for a text
with two `module` keywords and one `endmodule` the finding reports counts 2
and 1. -/
theorem C6_module_balance_check :
    (∀ text : List Char,
        findingsCat (analyze text) Category.MismatchedModuleEndmodule =
          (if countWordOcc moduleChars text = countWordOcc endmoduleChars text then []
           else [⟨Category.MismatchedModuleEndmodule, none, none,
             FindingDetail.counts (countWordOcc moduleChars text)
               (countWordOcc endmoduleChars text)⟩])) ∧
    findingsCat (analyze (("module a endmodule module b").data))
        Category.MismatchedModuleEndmodule =
      [⟨Category.MismatchedModuleEndmodule, none, none, FindingDetail.counts 2 1⟩] := by
  constructor
  · intro text
    rw [findingsCat_module]
    rfl
  · exact (findingsCat_module (("module a endmodule module b").data)).trans (by decide)

/-- C7: for every combinational block body, every line containing the
substring `<=` produces exactly one `NonBlockingInComb` finding (detail = the
stripped line) and no other line produces one; in particular the body
`out <= in;` yields exactly one finding with detail `out <= in;`. -/
theorem C7_comb_nonblocking_check :
    (∀ (text : List Char) (i : Nat) (b : List Char),
        (find_blocks_comb text).get? i = some b →
        findingsFor (analyze text) Category.NonBlockingInComb BlockKind.comb (i + 1) =
          ((pySplitlines b).filter (fun ln => containsSub leChars ln)).map
            (fun ln => ⟨Category.NonBlockingInComb, some BlockKind.comb, some (i + 1),
              FindingDetail.line (pyStrip ln)⟩)) ∧
    (find_blocks_comb (("always @(*) out <= in;").data) = [("out <= in;").data] ∧
      findingsFor (analyze (("always @(*) out <= in;").data))
          Category.NonBlockingInComb BlockKind.comb 1 =
        [⟨Category.NonBlockingInComb, some BlockKind.comb, some 1,
          FindingDetail.line (("out <= in;").data)⟩]) := by
  constructor
  · intro text i b h
    rw [findingsFor_analyze_comb text _ i b h, per_comb_filter_nonblocking]
    simp [check_non_blocking_in_comb, List.map_map, Function.comp]
  · constructor
    · decide
    · decide

/-- Witness for C7 at a concrete combinational block. -/
theorem C7_comb_nonblocking_check_witness :
    findingsFor (analyze (("always @(*) p <= q;").data))
      Category.NonBlockingInComb BlockKind.comb 1 =
      [⟨Category.NonBlockingInComb, some BlockKind.comb, some 1,
        FindingDetail.line (("p <= q;").data)⟩] :=
  (C7_comb_nonblocking_check.1 (("always @(*) p <= q;").data) 0
    (("p <= q;").data) (by decide)).trans (by decide)

/-- C8: the analysis is a total function; extractions that match nothing
yield empty sets or empty block sequences, and every check still runs to
completion on that empty data (in particular the empty text and a thoroughly
malformed text both yield complete, finding-free reports). -/
theorem C8_graceful_degradation :
    (∀ text : List Char, find_ports text = ∅ → check_port_usage text = []) ∧
    (∀ text : List Char, find_blocks_comb text = [] → find_blocks_seq text = [] →
        (analyze_always_blocks text).1 = [] ∧ (analyze text).combCount = 0 ∧
        (analyze text).seqCount = 0) ∧
    analyze [] = ⟨[], 0, 0⟩ ∧
    (analyze (("((( begin @ always ;;; <= ==== end").data)).findings = [] ∧
    find_ports [] = ∅ ∧ find_logic_usage [] = ∅ ∧ find_declared_regs [] = ∅ ∧
    find_blocks_comb [] = [] ∧ find_blocks_seq [] = [] ∧
    find_assigned_variables [] = ∅ ∧ pySplitlines [] = [] := by
  refine ⟨?_, ?_, ?_⟩
  · intro text hp
    simp [check_port_usage, hp]
  · intro text hc hs
    refine ⟨?_, ?_, ?_⟩ <;>
      simp [analyze, analyze_always_blocks, hc, hs, blocks_findings]
  · refine ⟨by decide, by decide, by decide, by decide, by decide, by decide,
      by decide, by decide, by decide⟩

/-- Witness for C8: the first two conjuncts applied at concrete inputs. -/
theorem C8_graceful_degradation_witness :
    check_port_usage (("module").data) = [] ∧
    (analyze_always_blocks (("abc").data)).1 = [] :=
  ⟨C8_graceful_degradation.1 (("module").data) (by decide),
   (C8_graceful_degradation.2.1 (("abc").data) (by decide) (by decide)).1⟩

/-- C9: for every input record sequence that processes successfully, the
emitted port list has exactly one line per `(base name, mapped direction)`
group of the non-excluded rows, in group first-appearance order; each line is
rendered from the group's collected range entries (max high bit / min low bit
when at least one range exists, plain otherwise); and an unmapped direction
code maps to `input`. -/
theorem C9_port_generator_interface :
    (∀ (rows : List PinRow) (out : List (List Char)),
        process_data rows = some out →
        out = (orderedKeys rows).map (fun k => renderGroup (k, rangesOf rows k))) ∧
    (∀ ft : List Char, lookupDir direction_map ft = none → dirOf ft = Dir.input) := by
  constructor
  · intro rows out h
    simp only [process_data] at h
    match hg : buildGroups [] (rows.filter (fun r => !(r.ptype == padChars))), h with
    | none, h => cases h
    | some g, h =>
      have hout : out = g.map renderGroup := (Option.some.inj h).symm
      have hnodup := buildGroups_nodup _ [] g hg (by simp)
      have hrec := groups_reconstruct g hnodup
      have hkeys' : g.map Prod.fst = orderedKeys rows := by
        have hkeys := buildGroups_keys _ [] g hg
        rw [hkeys]
        rfl
      have hlook : ∀ key, lookupG g key = rangesOf rows key := by
        intro key
        have hl := buildGroups_lookup _ [] g key hg
        rw [hl]
        rfl
      rw [hout]
      conv_lhs => rw [hrec]
      rw [List.map_map, hkeys']
      apply List.map_congr_left
      intro k hk
      simp [Function.comp, hlook k]
  · intro ft h
    simp [dirOf, h]

/-- Witness for C9: a concrete sheet with a split range, an unmapped
direction code and an excluded row. -/
theorem C9_port_generator_interface_witness :
    (orderedKeys
        [⟨("data<7:4>").data, [], ("sig").data, ("CA").data⟩,
         ⟨("data<3:0>").data, [], ("sig").data, ("CA").data⟩,
         ⟨("en").data, [], ("sig").data, ("XX").data⟩,
         ⟨("x").data, [], ("pad").data, ("CA").data⟩]).map
      (fun k => renderGroup (k,
        rangesOf
          [⟨("data<7:4>").data, [], ("sig").data, ("CA").data⟩,
           ⟨("data<3:0>").data, [], ("sig").data, ("CA").data⟩,
           ⟨("en").data, [], ("sig").data, ("XX").data⟩,
           ⟨("x").data, [], ("pad").data, ("CA").data⟩] k)) =
      [("output [7:0] data").data, ("input en").data] ∧
    dirOf (("ZZ").data) = Dir.input := by
  constructor
  · exact (C9_port_generator_interface.1
      [⟨("data<7:4>").data, [], ("sig").data, ("CA").data⟩,
       ⟨("data<3:0>").data, [], ("sig").data, ("CA").data⟩,
       ⟨("en").data, [], ("sig").data, ("XX").data⟩,
       ⟨("x").data, [], ("pad").data, ("CA").data⟩]
      [("output [7:0] data").data, ("input en").data] (by decide)).symm
  · exact C9_port_generator_interface.2 (("ZZ").data) (by decide)

/-- C10: the assigned-variable set includes any identifier followed (up to
whitespace) by an equality-comparison token `==`, since its first `=` matches
the identifier-followed-by-`=` pattern; for the sequential body `a == b;`
with no declared registers, `a` triggers an `UndeclaredRegAssignment`
finding. -/
theorem C10_eqeq_assignment_target :
    (∀ (body w pre sp tail : List Char),
        body = pre ++ w ++ (sp ++ '=' :: '=' :: tail) →
        w ≠ [] → (∀ c ∈ w, isWordChar c = true) →
        (pre = [] ∨ ∃ d, pre.getLast? = some d ∧ isWordChar d = false) →
        (∀ c ∈ sp, isSpaceChar c = true) →
        w ∈ find_assigned_variables body) ∧
    findingsFor (analyze (("always @(posedge clk) a == b;").data))
      Category.UndeclaredRegAssignment BlockKind.seq 1 =
      [⟨Category.UndeclaredRegAssignment, some BlockKind.seq, some 1,
        FindingDetail.names {("a").data}⟩] := by
  constructor
  · intro body w pre sp tail heq hne hall hb hsp
    exact (mem_find_assigned_variables_iff body w).mpr
      ⟨hne, hall, pre, sp ++ '=' :: '=' :: tail, heq, hb,
        opFollowsAssign_spaces_eq ('=' :: tail) sp hsp⟩
  · decide

/-- Witness for C10: `a` in `a == b` is captured as an assignment target. -/
theorem C10_eqeq_assignment_target_witness :
    ("a").data ∈ find_assigned_variables (("a == b").data) :=
  C10_eqeq_assignment_target.1 (("a == b").data) (("a").data) [] [' '] ((" b").data)
    (by decide) (by decide) (by decide) (Or.inl rfl) (by decide)

end PyTools
